import Mathlib

/-!
Verification of the header-adjuster editor extension.

The development embeds the core module of the repository (the header
parser, the level adjuster, the change applier and the orchestrator) as
executable Lean functions over a buffer modelled as a list of lines.
Header nodes live in an arena (a list indexed by position in document
order); the source's parent pointers and children arrays become an
`Option Nat` parent index and a `List Nat` of child indices.
-/

namespace HeaderAdjuster

/-- Character class of the JavaScript regular-expression escape for
whitespace, which the header pattern requires after the run of hash
marks. -/
def isJsWhitespace (c : Char) : Bool :=
  c = ' ' || c = '\t' || c = '\n' || c = '\u000B' || c = '\u000C' || c = '\r' ||
  c = '\u00A0' || c = '\u1680' || ('\u2000' ≤ c && c ≤ '\u200A') || c = '\u2028' ||
  c = '\u2029' || c = '\u202F' || c = '\u205F' || c = '\u3000' || c = '\uFEFF'

/-- Matching a line against the header pattern of the source, a run of
one to six hash marks followed by at least one whitespace character and
then the captured content.  A line with seven or more leading hash marks
never matches (the bounded greedy run cannot leave a whitespace
character next), and the content capture starts after the maximal run of
whitespace.  Editor lines contain no line terminators, so the content
capture reaches the end of the line. -/
def matchHeader (line : String) : Option (Nat × String) :=
  let cs := line.toList
  let k := (cs.takeWhile (fun c => c = '#')).length
  let rest := cs.drop k
  if 1 ≤ k ∧ k ≤ 6 then
    match rest with
    | [] => none
    | c :: _ => if isJsWhitespace c then some (k, String.mk (rest.dropWhile isJsWhitespace)) else none
  else none

/-- Arena form of the source's header object: `parent` is the index of
the parent node in the arena and `children` the indices of the children
in the order they were appended. -/
structure HNode where
  level : Int
  originalLevel : Int
  lineNumber : Nat
  content : String
  parent : Option Nat
  children : List Nat
deriving DecidableEq, Repr

instance : Inhabited HNode := ⟨⟨0, 0, 0, default, none, []⟩⟩

/-- Current level of the node at index `i`. -/
def lvlAt (hs : List HNode) (i : Nat) : Int := (hs.getD i default).level

/-- Original level of the node at index `i`. -/
def origAt (hs : List HNode) (i : Nat) : Int := (hs.getD i default).originalLevel

/-- Parent index of the node at index `i`. -/
def parentAt (hs : List HNode) (i : Nat) : Option Nat := (hs.getD i default).parent

/-- Children indices of the node at index `i`. -/
def childrenAt (hs : List HNode) (i : Nat) : List Nat := (hs.getD i default).children

/-- One-based line number of the node at index `i`. -/
def lineAt (hs : List HNode) (i : Nat) : Nat := (hs.getD i default).lineNumber

/-- Content of the node at index `i`. -/
def contentAt (hs : List HNode) (i : Nat) : String := (hs.getD i default).content

/-- The parser's upward walk from an ancestor candidate, skipping every
ancestor whose level is at least the current level.  The walk follows
parent indices, which strictly decrease, so a fuel of the arena size is
always sufficient. -/
def findAncestor (hs : List HNode) (lvl : Int) : Nat → Option Nat → Option Nat
  | 0, _ => none
  | _ + 1, none => none
  | fuel + 1, some i =>
    if lvl ≤ (hs.getD i default).level then findAncestor hs lvl fuel (hs.getD i default).parent
    else some i

/-- Parent determination for a new header of level `lvl`: a direct child
of the last header when strictly deeper, otherwise the first ancestor of
the last header whose level is strictly smaller. -/
def resolveParent (hs : List HNode) (lastIdx : Option Nat) (lvl : Int) : Option Nat :=
  match lastIdx with
  | none => none
  | some li =>
    if lvl > (hs.getD li default).level then some li
    else findAncestor hs lvl hs.length (hs.getD li default).parent

/-- Append child index `c` to the children array of the node at index `p`. -/
def pushChild (hs : List HNode) (p c : Nat) : List HNode :=
  match hs.get? p with
  | none => hs
  | some hp => hs.set p { hp with children := hp.children ++ [c] }

/-- Append child index `c` to the children of `p` when a parent was found. -/
def pushChildOpt (hs : List HNode) (p : Option Nat) (c : Nat) : List HNode :=
  match p with
  | none => hs
  | some pp => pushChild hs pp c

/-- Main loop of the parser over the line indices in range, carrying the
arena and the index of the last emitted header. -/
def parseLinesGo (buffer : List String) : List Nat → List HNode → Option Nat → List HNode
  | [], hs, _ => hs
  | i :: rest, hs, lastIdx =>
    match matchHeader (buffer.getD i default) with
    | none => parseLinesGo buffer rest hs lastIdx
    | some (lvl, content) =>
      let p := resolveParent hs lastIdx (lvl : Int)
      let newNode : HNode := ⟨(lvl : Int), (lvl : Int), i + 1, content, p, []⟩
      let hs2 := pushChildOpt (hs ++ [newNode]) p hs.length
      parseLinesGo buffer rest hs2 (some hs.length)

/-- Parse the headers of the buffer between `fromLine` and `toLine`
(zero-based, inclusive), after clamping the bounds to the valid line
range.  The loop visits exactly the line indices `i` with
`max 0 fromLine ≤ i ≤ min (lineCount - 1) toLine`, in ascending order. -/
def parseHeaders (buffer : List String) (fromLine toLine : Int) : List HNode :=
  let start := max 0 fromLine
  let stop := min ((buffer.length : Int) - 1) toLine
  parseLinesGo buffer
    ((List.range buffer.length).filter (fun i => decide (start ≤ (i : Int) ∧ (i : Int) ≤ stop)))
    [] none

/-- The two adjustment operations. -/
inductive AdjustmentOperation where
  | increase
  | decrease
deriving DecidableEq, Repr

/-- New level computed for one node by the decrease branch: subtract,
clamp below at one, force strictly below-parent ordering against the
parent's current level, clamp above at six. -/
def decreaseTarget (hs : List HNode) (h : HNode) (levels : Int) : Int :=
  let n1 := max 1 (h.originalLevel - levels)
  let n2 := match h.parent with
    | some p => if n1 ≤ lvlAt hs p then lvlAt hs p + 1 else n1
    | none => n1
  min n2 6

/-- New level computed for one node by the increase branch: add, clamp
above at six, force strictly above-child ordering against each child's
current level, clamp below at one. -/
def increaseTarget (hs : List HNode) (h : HNode) (levels : Int) : Int :=
  let n1 := min 6 (h.originalLevel + levels)
  let n2 := h.children.foldl (fun nl c => if nl ≥ lvlAt hs c then lvlAt hs c - 1 else nl) n1
  max 1 n2

/-- Process a single node of the arena, assigning its new level. -/
def adjustOne (op : AdjustmentOperation) (levels : Int) (hs : List HNode) (i : Nat) : List HNode :=
  match hs.get? i with
  | none => hs
  | some h =>
    let nl := match op with
      | .decrease => decreaseTarget hs h levels
      | .increase => increaseTarget hs h levels
    hs.set i { h with level := nl }

/-- The level adjuster: decrease processes the nodes in document order,
increase in reverse document order. -/
def updateHeaderLevels (hs : List HNode) (op : AdjustmentOperation) (levels : Int) : List HNode :=
  let order := match op with
    | .decrease => List.range hs.length
    | .increase => (List.range hs.length).reverse
  order.foldl (adjustOne op levels) hs

/-- One element of the batched edit handed to the editor transaction:
replace the character range `[fromCh, toCh)` of line `line` with `text`. -/
structure EditorChange where
  line : Nat
  fromCh : Nat
  toCh : Int
  text : String
deriving DecidableEq, Repr

/-- The change emitted for one node: nothing when the level is
unchanged, otherwise a replacement of the first `originalLevel`
characters of its line by the new hash run and a trailing space. -/
def changeFor (h : HNode) : Option EditorChange :=
  if h.level = h.originalLevel then none
  else some { line := h.lineNumber - 1, fromCh := 0, toCh := h.originalLevel,
              text := String.mk (List.replicate h.level.toNat '#') ++ " " }

/-- Stable insertion of a node into a list sorted by descending line
number, modelling the comparator of the source's sort call. -/
def insertDescByLine (x : HNode) : List HNode → List HNode
  | [] => [x]
  | y :: ys => if x.lineNumber < y.lineNumber then y :: insertDescByLine x ys else x :: y :: ys

/-- Stable sort by descending line number. -/
def sortDescByLine (hs : List HNode) : List HNode := hs.foldr insertDescByLine []

/-- The change applier: sort the nodes bottom-to-top, build the
potential changes, and keep exactly those of nodes whose level actually
changed.  The result is the list of changes of the single editor
transaction (an empty list means no transaction is executed). -/
def applyHeaderChanges (hs : List HNode) : List EditorChange :=
  ((sortDescByLine hs).map changeFor).filterMap id

/-- Apply one in-place character-range replacement to the buffer. -/
def applyChangeToBuffer (buffer : List String) (c : EditorChange) : List String :=
  match buffer.get? c.line with
  | none => buffer
  | some l =>
    buffer.set c.line
      (String.mk (l.toList.take c.fromCh) ++ c.text ++ String.mk (l.toList.drop c.toCh.toNat))

/-- Apply a batch of changes; the changes of one run target pairwise
distinct lines, so the application order is immaterial. -/
def applyChanges (buffer : List String) (cs : List EditorChange) : List String :=
  cs.foldl applyChangeToBuffer buffer

/-- User-facing outcome of one orchestrator run. -/
inductive Outcome where
  | rangeError
  | zeroLevels
  | negativeLevels
  | noHeadersFound
  | adjusted (count : Nat)
  | noChangeNeeded
deriving DecidableEq, Repr

/-- The orchestrator: validate the range and the magnitude, parse,
adjust, apply, and report how many headers actually changed level.
Returns the outcome together with the buffer after the run. -/
def processHeaderAdjustment (buffer : List String) (operation : AdjustmentOperation)
    (levels : Int) (fromLine toLine : Option Int) : Outcome × List String :=
  let startLine := fromLine.getD 0
  let endLine := toLine.getD ((buffer.length : Int) - 1)
  if startLine > endLine then (.rangeError, buffer)
  else if levels = 0 then (.zeroLevels, buffer)
  else if levels < 0 then (.negativeLevels, buffer)
  else
    let headersInRange := parseHeaders buffer startLine endLine
    if headersInRange.length = 0 then (.noHeadersFound, buffer)
    else
      let adjusted := updateHeaderLevels headersInRange operation levels
      let changes := applyHeaderChanges adjusted
      let newBuffer := applyChanges buffer changes
      let changedCount := (adjusted.filter (fun h => h.level != h.originalLevel)).length
      if changedCount > 0 then (.adjusted changedCount, newBuffer)
      else (.noChangeNeeded, newBuffer)

/-- Modelled from the spec, for comparison with the parser: the nearest
preceding emitted node whose level is strictly smaller than `lvl`, among
the nodes at indices below `i`. -/
def nearestSmallerBefore (hs : List HNode) (i : Nat) (lvl : Int) : Option Nat :=
  ((List.range i).reverse).find? (fun j => decide (lvlAt hs j < lvl))

end HeaderAdjuster

namespace HeaderAdjuster

/-- Claim C4: parsing the three-header document and increasing by ten
assigns, children before parents, level six to C, five to B and four to
A. -/
theorem c4_increase_by_ten_propagates_bottom_up :
    (updateHeaderLevels (parseHeaders ["# A", "## B", "### C"] 0 2) .increase 10).map
      (fun h => (h.level, h.content)) = [(4, "A"), (5, "B"), (6, "C")] := by
  decide

/-- Claim C2: evaluation of the full pipeline at the claim's own
scenario.  The change applier replaces only the hash run, characters
zero to `originalLevel`, while its replacement text ends in a space, so
the original separator whitespace survives after the inserted space and
every rewritten line gains an extra space: the run yields two-space
separators, not the single-space result the claim states. -/
theorem c2_pipeline_inserts_extra_space :
    processHeaderAdjustment ["# A", "## B", "### C"] .increase 1 none none
      = (.adjusted 3, ["##  A", "###  B", "####  C"]) := by
  decide

/-- Claim C5: each failed validation is a distinct early exit returning
the buffer unchanged: start after end, zero magnitude, negative
magnitude, and no headers found in the range. -/
theorem c5_validation_early_exits (buffer : List String) (op : AdjustmentOperation)
    (levels : Int) (fromLine toLine : Option Int) :
    (fromLine.getD 0 > toLine.getD ((buffer.length : Int) - 1) →
      processHeaderAdjustment buffer op levels fromLine toLine = (.rangeError, buffer)) ∧
    (¬ fromLine.getD 0 > toLine.getD ((buffer.length : Int) - 1) → levels = 0 →
      processHeaderAdjustment buffer op levels fromLine toLine = (.zeroLevels, buffer)) ∧
    (¬ fromLine.getD 0 > toLine.getD ((buffer.length : Int) - 1) → levels < 0 →
      processHeaderAdjustment buffer op levels fromLine toLine = (.negativeLevels, buffer)) ∧
    (¬ fromLine.getD 0 > toLine.getD ((buffer.length : Int) - 1) → 0 < levels →
      parseHeaders buffer (fromLine.getD 0) (toLine.getD ((buffer.length : Int) - 1)) = [] →
      processHeaderAdjustment buffer op levels fromLine toLine = (.noHeadersFound, buffer)) ∧
    List.Pairwise (· ≠ ·)
      [Outcome.rangeError, Outcome.zeroLevels, Outcome.negativeLevels, Outcome.noHeadersFound] := by
  refine ⟨fun h1 => ?_, fun h1 h2 => ?_, fun h1 h3 => ?_, fun h1 h4 h5 => ?_, by decide⟩
  · simp only [processHeaderAdjustment]
    rw [if_pos h1]
  · simp only [processHeaderAdjustment]
    rw [if_neg h1, if_pos h2]
  · simp only [processHeaderAdjustment]
    rw [if_neg h1, if_neg (by omega), if_pos h3]
  · simp only [processHeaderAdjustment]
    rw [if_neg h1, if_neg (by omega), if_neg (by omega), h5]
    simp

/-- Witness for claim C5, instantiating each of the four early exits at
a concrete input. -/
theorem c5_validation_early_exits_witness :
    processHeaderAdjustment ["# A"] .increase 1 (some 3) (some 1) = (.rangeError, ["# A"]) ∧
    processHeaderAdjustment ["# A"] .increase 0 none none = (.zeroLevels, ["# A"]) ∧
    processHeaderAdjustment ["# A"] .increase (-2) none none = (.negativeLevels, ["# A"]) ∧
    processHeaderAdjustment ["no header"] .increase 1 none none = (.noHeadersFound, ["no header"]) := by
  refine ⟨(c5_validation_early_exits ["# A"] .increase 1 (some 3) (some 1)).1 (by decide),
    (c5_validation_early_exits ["# A"] .increase 0 none none).2.1 (by decide) rfl,
    (c5_validation_early_exits ["# A"] .increase (-2) none none).2.2.1 (by decide) (by decide),
    (c5_validation_early_exits ["no header"] .increase 1 none none).2.2.2.1 (by decide) (by decide)
      (by decide)⟩

/-- Claim C8: when validation passes and headers are found, the
orchestrator reports the number of nodes whose adjusted level differs
from their original level, and a zero count yields the distinct
no-change outcome, different from the no-headers outcome. -/
theorem c8_changed_count_report (buffer : List String) (op : AdjustmentOperation)
    (levels : Int) (fromLine toLine : Option Int)
    (h1 : ¬ fromLine.getD 0 > toLine.getD ((buffer.length : Int) - 1))
    (h2 : 0 < levels)
    (h3 : parseHeaders buffer (fromLine.getD 0) (toLine.getD ((buffer.length : Int) - 1)) ≠ []) :
    (processHeaderAdjustment buffer op levels fromLine toLine).1 =
      (if 0 < ((updateHeaderLevels
            (parseHeaders buffer (fromLine.getD 0) (toLine.getD ((buffer.length : Int) - 1)))
            op levels).filter (fun h => h.level != h.originalLevel)).length
        then Outcome.adjusted ((updateHeaderLevels
            (parseHeaders buffer (fromLine.getD 0) (toLine.getD ((buffer.length : Int) - 1)))
            op levels).filter (fun h => h.level != h.originalLevel)).length
        else Outcome.noChangeNeeded) ∧
    Outcome.noChangeNeeded ≠ Outcome.noHeadersFound := by
  constructor
  · simp only [processHeaderAdjustment]
    rw [if_neg h1, if_neg (by omega), if_neg (by omega),
      if_neg (by simpa [List.length_eq_zero] using h3)]
    split
    · rfl
    · rfl
  · decide

/-- Witness for claim C8: a run whose adjustment changes one header
reports a count of one, and a run where the single header is already at
its ceiling reports the no-change outcome. -/
theorem c8_changed_count_report_witness :
    (processHeaderAdjustment ["# A"] .increase 1 none none).1 = Outcome.adjusted 1 ∧
    (processHeaderAdjustment ["###### A"] .increase 1 none none).1 = Outcome.noChangeNeeded := by
  constructor
  · have h := (c8_changed_count_report ["# A"] .increase 1 none none (by decide) (by decide)
      (by decide)).1
    rw [h]
    decide
  · have h := (c8_changed_count_report ["###### A"] .increase 1 none none (by decide) (by decide)
      (by decide)).1
    rw [h]
    decide

end HeaderAdjuster

namespace HeaderAdjuster

/-- Effect of a positional update on the defaulted read. -/
theorem getD_set (hs : List HNode) (i j : Nat) (a : HNode) :
    (hs.set i a).getD j default = if i = j ∧ i < hs.length then a else hs.getD j default := by
  rw [List.getD_eq_getElem?_getD, List.getD_eq_getElem?_getD, List.getElem?_set]
  by_cases h1 : i = j
  · subst h1
    by_cases h2 : i < hs.length
    · simp [h2]
    · simp [h2, List.getElem?_eq_none (le_of_not_lt h2)]
  · simp [h1]

theorem getD_of_get?_eq_some {hs : List HNode} {i : Nat} {h : HNode}
    (hh : hs.get? i = some h) : hs.getD i default = h := by
  rw [List.getD_eq_getElem?_getD, ← List.get?_eq_getElem?, hh]
  rfl

theorem get?_eq_some_getD {hs : List HNode} {i : Nat} (hi : i < hs.length) :
    hs.get? i = some (hs.getD i default) := by
  rw [List.get?_eq_getElem?, List.getElem?_eq_getElem hi, List.getD_eq_getElem?_getD,
    List.getElem?_eq_getElem hi]
  rfl

theorem length_adjustOne (op : AdjustmentOperation) (levels : Int) (hs : List HNode) (i : Nat) :
    (adjustOne op levels hs i).length = hs.length := by
  unfold adjustOne
  cases hh : hs.get? i <;> simp

theorem origAt_adjustOne (op : AdjustmentOperation) (levels : Int) (hs : List HNode) (i j : Nat) :
    origAt (adjustOne op levels hs i) j = origAt hs j := by
  unfold adjustOne
  cases hh : hs.get? i with
  | none => rfl
  | some h =>
    simp only [origAt, getD_set]
    by_cases hc : i = j ∧ i < hs.length
    · rw [if_pos hc, ← hc.1, getD_of_get?_eq_some hh]
    · rw [if_neg hc]

theorem parentAt_adjustOne (op : AdjustmentOperation) (levels : Int) (hs : List HNode) (i j : Nat) :
    parentAt (adjustOne op levels hs i) j = parentAt hs j := by
  unfold adjustOne
  cases hh : hs.get? i with
  | none => rfl
  | some h =>
    simp only [parentAt, getD_set]
    by_cases hc : i = j ∧ i < hs.length
    · rw [if_pos hc, ← hc.1, getD_of_get?_eq_some hh]
    · rw [if_neg hc]

theorem childrenAt_adjustOne (op : AdjustmentOperation) (levels : Int) (hs : List HNode) (i j : Nat) :
    childrenAt (adjustOne op levels hs i) j = childrenAt hs j := by
  unfold adjustOne
  cases hh : hs.get? i with
  | none => rfl
  | some h =>
    simp only [childrenAt, getD_set]
    by_cases hc : i = j ∧ i < hs.length
    · rw [if_pos hc, ← hc.1, getD_of_get?_eq_some hh]
    · rw [if_neg hc]

theorem lineAt_adjustOne (op : AdjustmentOperation) (levels : Int) (hs : List HNode) (i j : Nat) :
    lineAt (adjustOne op levels hs i) j = lineAt hs j := by
  unfold adjustOne
  cases hh : hs.get? i with
  | none => rfl
  | some h =>
    simp only [lineAt, getD_set]
    by_cases hc : i = j ∧ i < hs.length
    · rw [if_pos hc, ← hc.1, getD_of_get?_eq_some hh]
    · rw [if_neg hc]

theorem contentAt_adjustOne (op : AdjustmentOperation) (levels : Int) (hs : List HNode) (i j : Nat) :
    contentAt (adjustOne op levels hs i) j = contentAt hs j := by
  unfold adjustOne
  cases hh : hs.get? i with
  | none => rfl
  | some h =>
    simp only [contentAt, getD_set]
    by_cases hc : i = j ∧ i < hs.length
    · rw [if_pos hc, ← hc.1, getD_of_get?_eq_some hh]
    · rw [if_neg hc]

theorem lvlAt_adjustOne_ne (op : AdjustmentOperation) (levels : Int) (hs : List HNode)
    {i j : Nat} (hne : i ≠ j) : lvlAt (adjustOne op levels hs i) j = lvlAt hs j := by
  unfold adjustOne
  cases hh : hs.get? i with
  | none => rfl
  | some h =>
    simp only [lvlAt, getD_set]
    rw [if_neg (fun hc => hne hc.1)]

theorem lvlAt_adjustOne_self_decrease (levels : Int) (hs : List HNode) {i : Nat}
    (hi : i < hs.length) :
    lvlAt (adjustOne .decrease levels hs i) i = decreaseTarget hs (hs.getD i default) levels := by
  unfold adjustOne
  rw [get?_eq_some_getD hi]
  simp only [lvlAt, getD_set]
  simp [hi]

theorem lvlAt_adjustOne_self_increase (levels : Int) (hs : List HNode) {i : Nat}
    (hi : i < hs.length) :
    lvlAt (adjustOne .increase levels hs i) i = increaseTarget hs (hs.getD i default) levels := by
  unfold adjustOne
  rw [get?_eq_some_getD hi]
  simp only [lvlAt, getD_set]
  simp [hi]

/-- State of the decrease pass after the first `k` nodes, in document
order, have been processed. -/
def procUp (op : AdjustmentOperation) (levels : Int) (hs : List HNode) : Nat → List HNode
  | 0 => hs
  | k + 1 => adjustOne op levels (procUp op levels hs k) k

/-- State of the increase pass after the last `k` nodes, in reverse
document order, have been processed. -/
def procTop (op : AdjustmentOperation) (levels : Int) (hs : List HNode) (n : Nat) :
    Nat → List HNode
  | 0 => hs
  | k + 1 => adjustOne op levels (procTop op levels hs n k) (n - 1 - k)

theorem updateHeaderLevels_decrease_eq (hs : List HNode) (levels : Int) :
    updateHeaderLevels hs .decrease levels = procUp .decrease levels hs hs.length := by
  suffices h : ∀ n, (List.range n).foldl (adjustOne .decrease levels) hs
      = procUp .decrease levels hs n by
    simpa [updateHeaderLevels] using h hs.length
  intro n
  induction n with
  | zero => rfl
  | succ k ih =>
    rw [List.range_succ, List.foldl_append, ih]
    rfl

theorem updateHeaderLevels_increase_eq (hs : List HNode) (levels : Int) :
    updateHeaderLevels hs .increase levels = procTop .increase levels hs hs.length hs.length := by
  suffices h : ∀ k, k ≤ hs.length →
      ((List.range hs.length).reverse.take k).foldl (adjustOne .increase levels) hs
        = procTop .increase levels hs hs.length k by
    have h2 := h hs.length le_rfl
    rw [List.take_of_length_le (by simp)] at h2
    simpa [updateHeaderLevels] using h2
  intro k
  induction k with
  | zero => intro _; rfl
  | succ k ih =>
    intro hk
    have hk' : k < hs.length := hk
    have hrev : (List.range hs.length).reverse[k]? = some (hs.length - 1 - k) := by
      rw [List.getElem?_reverse (by simpa using hk'), List.length_range, List.getElem?_range]
      omega
    rw [List.take_succ, hrev]
    simp only [Option.toList_some]
    rw [List.foldl_append, ih (le_of_lt hk')]
    rfl

theorem length_procUp (op : AdjustmentOperation) (levels : Int) (hs : List HNode) (k : Nat) :
    (procUp op levels hs k).length = hs.length := by
  induction k with
  | zero => rfl
  | succ k ih => rw [procUp, length_adjustOne, ih]

theorem length_procTop (op : AdjustmentOperation) (levels : Int) (hs : List HNode) (n k : Nat) :
    (procTop op levels hs n k).length = hs.length := by
  induction k with
  | zero => rfl
  | succ k ih => rw [procTop, length_adjustOne, ih]

theorem origAt_procUp (op : AdjustmentOperation) (levels : Int) (hs : List HNode) (k j : Nat) :
    origAt (procUp op levels hs k) j = origAt hs j := by
  induction k with
  | zero => rfl
  | succ k ih => rw [procUp, origAt_adjustOne, ih]

theorem parentAt_procUp (op : AdjustmentOperation) (levels : Int) (hs : List HNode) (k j : Nat) :
    parentAt (procUp op levels hs k) j = parentAt hs j := by
  induction k with
  | zero => rfl
  | succ k ih => rw [procUp, parentAt_adjustOne, ih]

theorem childrenAt_procUp (op : AdjustmentOperation) (levels : Int) (hs : List HNode) (k j : Nat) :
    childrenAt (procUp op levels hs k) j = childrenAt hs j := by
  induction k with
  | zero => rfl
  | succ k ih => rw [procUp, childrenAt_adjustOne, ih]

theorem lineAt_procUp (op : AdjustmentOperation) (levels : Int) (hs : List HNode) (k j : Nat) :
    lineAt (procUp op levels hs k) j = lineAt hs j := by
  induction k with
  | zero => rfl
  | succ k ih => rw [procUp, lineAt_adjustOne, ih]

theorem contentAt_procUp (op : AdjustmentOperation) (levels : Int) (hs : List HNode) (k j : Nat) :
    contentAt (procUp op levels hs k) j = contentAt hs j := by
  induction k with
  | zero => rfl
  | succ k ih => rw [procUp, contentAt_adjustOne, ih]

theorem origAt_procTop (op : AdjustmentOperation) (levels : Int) (hs : List HNode) (n k j : Nat) :
    origAt (procTop op levels hs n k) j = origAt hs j := by
  induction k with
  | zero => rfl
  | succ k ih => rw [procTop, origAt_adjustOne, ih]

theorem parentAt_procTop (op : AdjustmentOperation) (levels : Int) (hs : List HNode) (n k j : Nat) :
    parentAt (procTop op levels hs n k) j = parentAt hs j := by
  induction k with
  | zero => rfl
  | succ k ih => rw [procTop, parentAt_adjustOne, ih]

theorem childrenAt_procTop (op : AdjustmentOperation) (levels : Int) (hs : List HNode)
    (n k j : Nat) : childrenAt (procTop op levels hs n k) j = childrenAt hs j := by
  induction k with
  | zero => rfl
  | succ k ih => rw [procTop, childrenAt_adjustOne, ih]

theorem lineAt_procTop (op : AdjustmentOperation) (levels : Int) (hs : List HNode) (n k j : Nat) :
    lineAt (procTop op levels hs n k) j = lineAt hs j := by
  induction k with
  | zero => rfl
  | succ k ih => rw [procTop, lineAt_adjustOne, ih]

theorem contentAt_procTop (op : AdjustmentOperation) (levels : Int) (hs : List HNode)
    (n k j : Nat) : contentAt (procTop op levels hs n k) j = contentAt hs j := by
  induction k with
  | zero => rfl
  | succ k ih => rw [procTop, contentAt_adjustOne, ih]

theorem lvlAt_procUp_of_ge (op : AdjustmentOperation) (levels : Int) (hs : List HNode)
    {k j : Nat} (hkj : k ≤ j) : lvlAt (procUp op levels hs k) j = lvlAt hs j := by
  induction k with
  | zero => rfl
  | succ k ih =>
    rw [procUp, lvlAt_adjustOne_ne _ _ _ (by omega), ih (by omega)]

theorem lvlAt_procTop_of_lt (op : AdjustmentOperation) (levels : Int) (hs : List HNode)
    {n k j : Nat} (hj : j < n - k) : lvlAt (procTop op levels hs n k) j = lvlAt hs j := by
  induction k with
  | zero => rfl
  | succ k ih =>
    rw [procTop, lvlAt_adjustOne_ne _ _ _ (by omega), ih (by omega)]

end HeaderAdjuster

namespace HeaderAdjuster

/-- Facts the parser guarantees for the arena it outputs: levels are
fresh snapshots within one and six, parents precede their children and
have strictly smaller original level, and each children array holds
exactly the indices whose parent field points back, in document order. -/
structure ForestWF (hs : List HNode) : Prop where
  orig_lb : ∀ i, i < hs.length → 1 ≤ origAt hs i
  orig_ub : ∀ i, i < hs.length → origAt hs i ≤ 6
  fresh : ∀ i, i < hs.length → lvlAt hs i = origAt hs i
  parent_lt : ∀ i p, parentAt hs i = some p → p < i
  parent_orig : ∀ i p, i < hs.length → parentAt hs i = some p → origAt hs p < origAt hs i
  children_eq : ∀ i, i < hs.length →
    childrenAt hs i = (List.range hs.length).filter (fun j => decide (parentAt hs j = some i))

theorem ForestWF.mem_children {hs : List HNode} (wf : ForestWF hs) {i : Nat}
    (hi : i < hs.length) (c : Nat) :
    c ∈ childrenAt hs i ↔ c < hs.length ∧ parentAt hs c = some i := by
  rw [wf.children_eq i hi, List.mem_filter, List.mem_range]
  simp

/-- Result of the child-constraint fold of the increase branch: the
value starts at `n1`, never drops below `b` when every child level is at
least `b + 1`, never rises, and ends strictly below every child level. -/
theorem childFold_bounds (L : Nat → Int) (b : Int) :
    ∀ (cs : List Nat) (n1 : Int), (∀ c ∈ cs, b + 1 ≤ L c) → b ≤ n1 →
      b ≤ cs.foldl (fun nl c => if nl ≥ L c then L c - 1 else nl) n1 ∧
      cs.foldl (fun nl c => if nl ≥ L c then L c - 1 else nl) n1 ≤ n1 ∧
      ∀ c ∈ cs, cs.foldl (fun nl c => if nl ≥ L c then L c - 1 else nl) n1 < L c := by
  intro cs
  induction cs with
  | nil =>
    intro n1 _ hb
    exact ⟨hb, le_rfl, by simp⟩
  | cons c cs ih =>
    intro n1 hcs hb
    have hc : b + 1 ≤ L c := hcs c (List.mem_cons_self c cs)
    simp only [List.foldl_cons]
    have hb' : b ≤ if n1 ≥ L c then L c - 1 else n1 := by split <;> omega
    have hlt : (if n1 ≥ L c then L c - 1 else n1) < L c := by split <;> omega
    have hle : (if n1 ≥ L c then L c - 1 else n1) ≤ n1 := by split <;> omega
    obtain ⟨h1, h2, h3⟩ := ih (if n1 ≥ L c then L c - 1 else n1)
      (fun c' hc' => hcs c' (List.mem_cons_of_mem c hc')) hb'
    refine ⟨h1, le_trans h2 hle, ?_⟩
    intro c' hc'
    rcases List.mem_cons.mp hc' with hcc | hcc
    · subst hcc
      exact lt_of_le_of_lt h2 hlt
    · exact h3 c' hcc

theorem decreaseTarget_parent_none (hs : List HNode) (h : HNode) (levels : Int)
    (hp : h.parent = none) :
    decreaseTarget hs h levels = min (max 1 (h.originalLevel - levels)) 6 := by
  simp [decreaseTarget, hp]

theorem decreaseTarget_parent_some (hs : List HNode) (h : HNode) (levels : Int) (p : Nat)
    (hp : h.parent = some p) :
    decreaseTarget hs h levels =
      min (if max 1 (h.originalLevel - levels) ≤ lvlAt hs p then lvlAt hs p + 1
           else max 1 (h.originalLevel - levels)) 6 := by
  simp [decreaseTarget, hp]

theorem increaseTarget_eq (hs : List HNode) (h : HNode) (levels : Int) :
    increaseTarget hs h levels = max 1 (h.children.foldl
      (fun nl c => if nl ≥ lvlAt hs c then lvlAt hs c - 1 else nl)
      (min 6 (h.originalLevel + levels))) := by
  simp [increaseTarget]

end HeaderAdjuster

namespace HeaderAdjuster

/-- Invariant of the increase pass: after the last `k` nodes have been
processed, the untouched prefix still carries the original levels, and
every processed node has a level within one and six, at least its
original level, and strictly below the current level of each of its
children. -/
theorem procTop_increase_inv (hs : List HNode) (m : Int) (hm : 1 ≤ m) (wf : ForestWF hs) :
    ∀ k, k ≤ hs.length →
      (∀ j, j < hs.length - k →
        lvlAt (procTop .increase m hs hs.length k) j = origAt hs j) ∧
      (∀ j, hs.length - k ≤ j → j < hs.length →
        1 ≤ lvlAt (procTop .increase m hs hs.length k) j ∧
        lvlAt (procTop .increase m hs hs.length k) j ≤ 6 ∧
        origAt hs j ≤ lvlAt (procTop .increase m hs hs.length k) j ∧
        ∀ c ∈ childrenAt hs j,
          lvlAt (procTop .increase m hs hs.length k) j
            < lvlAt (procTop .increase m hs hs.length k) c) := by
  intro k
  induction k with
  | zero =>
    intro _
    refine ⟨fun j hj => wf.fresh j (by omega), fun j hj1 hj2 => absurd hj1 (by omega)⟩
  | succ k ih =>
    intro hk
    obtain ⟨ih1, ih2⟩ := ih (by omega)
    have hilt : hs.length - 1 - k < hs.length := by omega
    have hslen : (procTop .increase m hs hs.length k).length = hs.length :=
      length_procTop .increase m hs hs.length k
    have hstep : procTop .increase m hs hs.length (k + 1)
        = adjustOne .increase m (procTop .increase m hs hs.length k) (hs.length - 1 - k) := rfl
    have hnode_orig :
        ((procTop .increase m hs hs.length k).getD (hs.length - 1 - k) default).originalLevel
          = origAt hs (hs.length - 1 - k) :=
      origAt_procTop .increase m hs hs.length k (hs.length - 1 - k)
    have hnode_children :
        ((procTop .increase m hs hs.length k).getD (hs.length - 1 - k) default).children
          = childrenAt hs (hs.length - 1 - k) :=
      childrenAt_procTop .increase m hs hs.length k (hs.length - 1 - k)
    have hchild_facts : ∀ c ∈ childrenAt hs (hs.length - 1 - k),
        hs.length - 1 - k < c ∧ c < hs.length ∧
          origAt hs (hs.length - 1 - k) + 1 ≤ lvlAt (procTop .increase m hs hs.length k) c := by
      intro c hc
      obtain ⟨hclen, hcp⟩ := (wf.mem_children hilt c).mp hc
      have hic : hs.length - 1 - k < c := wf.parent_lt c _ hcp
      have horig : origAt hs (hs.length - 1 - k) < origAt hs c := wf.parent_orig c _ hclen hcp
      have hproc := (ih2 c (by omega) hclen).2.2.1
      exact ⟨hic, hclen, by omega⟩
    obtain ⟨hfb0, hfn10, hflt0⟩ := childFold_bounds
      (fun c => lvlAt (procTop .increase m hs hs.length k) c)
      (origAt hs (hs.length - 1 - k)) (childrenAt hs (hs.length - 1 - k))
      (min 6 (origAt hs (hs.length - 1 - k) + m))
      (fun c hc => (hchild_facts c hc).2.2)
      (by
        have h1 := wf.orig_ub (hs.length - 1 - k) hilt
        omega)
    have hfb : origAt hs (hs.length - 1 - k) ≤ (childrenAt hs (hs.length - 1 - k)).foldl
        (fun nl c => if nl ≥ lvlAt (procTop .increase m hs hs.length k) c
          then lvlAt (procTop .increase m hs hs.length k) c - 1 else nl)
        (min 6 (origAt hs (hs.length - 1 - k) + m)) := hfb0
    have hfn1 : (childrenAt hs (hs.length - 1 - k)).foldl
        (fun nl c => if nl ≥ lvlAt (procTop .increase m hs hs.length k) c
          then lvlAt (procTop .increase m hs hs.length k) c - 1 else nl)
        (min 6 (origAt hs (hs.length - 1 - k) + m))
          ≤ min 6 (origAt hs (hs.length - 1 - k) + m) := hfn10
    have hflt : ∀ c ∈ childrenAt hs (hs.length - 1 - k),
        (childrenAt hs (hs.length - 1 - k)).foldl
          (fun nl c => if nl ≥ lvlAt (procTop .increase m hs hs.length k) c
            then lvlAt (procTop .increase m hs hs.length k) c - 1 else nl)
          (min 6 (origAt hs (hs.length - 1 - k) + m))
            < lvlAt (procTop .increase m hs hs.length k) c := hflt0
    have hlvi : lvlAt (procTop .increase m hs hs.length (k + 1)) (hs.length - 1 - k)
        = (childrenAt hs (hs.length - 1 - k)).foldl
          (fun nl c => if nl ≥ lvlAt (procTop .increase m hs hs.length k) c
            then lvlAt (procTop .increase m hs hs.length k) c - 1 else nl)
          (min 6 (origAt hs (hs.length - 1 - k) + m)) := by
      rw [hstep, lvlAt_adjustOne_self_increase m _ (by omega), increaseTarget_eq,
        hnode_orig, hnode_children]
      have h1 := wf.orig_lb (hs.length - 1 - k) hilt
      omega
    constructor
    · intro j hj
      rw [hstep, lvlAt_adjustOne_ne _ _ _ (by omega), ih1 j (by omega)]
    · intro j hj1 hj2
      by_cases hji : j = hs.length - 1 - k
      · subst hji
        have h1 := wf.orig_lb (hs.length - 1 - k) hj2
        refine ⟨by omega, by omega, by omega, ?_⟩
        intro c hc
        obtain ⟨hic, hclen, _⟩ := hchild_facts c hc
        have hcne : hs.length - 1 - k ≠ c := by omega
        rw [hstep] at hlvi
        rw [hstep, lvlAt_adjustOne_ne _ _ _ (fun hh => hcne hh), hlvi]
        exact hflt c hc
      · have hj3 : hs.length - k ≤ j := by omega
        obtain ⟨p1, p2, p3, p4⟩ := ih2 j hj3 hj2
        have hjne : hs.length - 1 - k ≠ j := fun hh => hji hh.symm
        rw [hstep, lvlAt_adjustOne_ne _ _ _ hjne]
        refine ⟨p1, p2, p3, ?_⟩
        intro c hc
        obtain ⟨hclen, hcp⟩ := (wf.mem_children hj2 c).mp hc
        have hjc : j < c := wf.parent_lt c _ hcp
        have hcne : hs.length - 1 - k ≠ c := by omega
        rw [lvlAt_adjustOne_ne _ _ _ hcne]
        exact p4 c hc

end HeaderAdjuster

namespace HeaderAdjuster

/-- Invariant of the decrease pass: after the first `k` nodes have been
processed, the untouched suffix still carries the original levels, and
every processed node has a level within one and six, at most its
original level, and strictly above the current level of its parent. -/
theorem procUp_decrease_inv (hs : List HNode) (m : Int) (hm : 1 ≤ m) (wf : ForestWF hs) :
    ∀ k, k ≤ hs.length →
      (∀ j, k ≤ j → j < hs.length → lvlAt (procUp .decrease m hs k) j = origAt hs j) ∧
      (∀ j, j < k →
        1 ≤ lvlAt (procUp .decrease m hs k) j ∧
        lvlAt (procUp .decrease m hs k) j ≤ 6 ∧
        lvlAt (procUp .decrease m hs k) j ≤ origAt hs j ∧
        ∀ p, parentAt hs j = some p →
          lvlAt (procUp .decrease m hs k) p < lvlAt (procUp .decrease m hs k) j) := by
  intro k
  induction k with
  | zero =>
    intro _
    exact ⟨fun j _ hj => wf.fresh j hj, fun j hj => absurd hj (by omega)⟩
  | succ k ih =>
    intro hk
    obtain ⟨ih1, ih2⟩ := ih (by omega)
    have hklt : k < hs.length := by omega
    have hslen : (procUp .decrease m hs k).length = hs.length := length_procUp .decrease m hs k
    have hstep : procUp .decrease m hs (k + 1) = adjustOne .decrease m (procUp .decrease m hs k) k :=
      rfl
    have hnode_orig : ((procUp .decrease m hs k).getD k default).originalLevel = origAt hs k :=
      origAt_procUp .decrease m hs k k
    have hnode_parent : ((procUp .decrease m hs k).getD k default).parent = parentAt hs k :=
      parentAt_procUp .decrease m hs k k
    have hself : lvlAt (procUp .decrease m hs (k + 1)) k
        = decreaseTarget (procUp .decrease m hs k) ((procUp .decrease m hs k).getD k default) m := by
      rw [hstep, lvlAt_adjustOne_self_decrease m _ (by omega)]
    have horig_lb := wf.orig_lb k hklt
    have horig_ub := wf.orig_ub k hklt
    have hbounds : 1 ≤ lvlAt (procUp .decrease m hs (k + 1)) k ∧
        lvlAt (procUp .decrease m hs (k + 1)) k ≤ 6 ∧
        lvlAt (procUp .decrease m hs (k + 1)) k ≤ origAt hs k ∧
        ∀ p, parentAt hs k = some p →
          lvlAt (procUp .decrease m hs k) p < lvlAt (procUp .decrease m hs (k + 1)) k := by
      cases hpar : parentAt hs k with
      | none =>
        rw [hself, decreaseTarget_parent_none _ _ _ (by rw [hnode_parent, hpar]), hnode_orig]
        refine ⟨by omega, by omega, by omega, ?_⟩
        intro p hp
        exact absurd hp (by simp)
      | some p =>
        have hplt : p < k := wf.parent_lt k p hpar
        obtain ⟨q1, q2, q3, _⟩ := ih2 p hplt
        have hpo := wf.parent_orig k p hklt hpar
        rw [hself, decreaseTarget_parent_some _ _ _ p (by rw [hnode_parent, hpar]), hnode_orig]
        by_cases hif : max 1 (origAt hs k - m) ≤ lvlAt (procUp .decrease m hs k) p
        · rw [if_pos hif]
          refine ⟨by omega, by omega, by omega, ?_⟩
          intro p' hp'
          obtain rfl : p = p' := by injection hp'
          omega
        · rw [if_neg hif]
          refine ⟨by omega, by omega, by omega, ?_⟩
          intro p' hp'
          obtain rfl : p = p' := by injection hp'
          omega
    constructor
    · intro j hj1 hj2
      rw [hstep, lvlAt_adjustOne_ne _ _ _ (by omega), ih1 j (by omega) hj2]
    · intro j hj
      by_cases hjk : j = k
      · subst hjk
        refine ⟨hbounds.1, hbounds.2.1, hbounds.2.2.1, ?_⟩
        intro p hp
        have hplt : p < j := wf.parent_lt j p hp
        rw [hstep, lvlAt_adjustOne_ne _ _ _ (by omega)]
        rw [hstep] at hbounds
        exact hbounds.2.2.2 p hp
      · have hjlt : j < k := by omega
        obtain ⟨q1, q2, q3, q4⟩ := ih2 j hjlt
        rw [hstep, lvlAt_adjustOne_ne _ _ _ (by omega)]
        refine ⟨q1, q2, q3, ?_⟩
        intro p hp
        have hplt : p < j := wf.parent_lt j p hp
        rw [lvlAt_adjustOne_ne _ _ _ (by omega)]
        exact q4 p hp

end HeaderAdjuster

namespace HeaderAdjuster

theorem getD_append_lt {hs : List HNode} {j : Nat} (x : HNode) (hj : j < hs.length) :
    (hs ++ [x]).getD j default = hs.getD j default := by
  rw [List.getD_eq_getElem?_getD, List.getD_eq_getElem?_getD, List.getElem?_append_left hj]

theorem getD_append_self {hs : List HNode} (x : HNode) :
    (hs ++ [x]).getD hs.length default = x := by
  rw [List.getD_eq_getElem?_getD, List.getElem?_concat_length]
  rfl

theorem getD_append_gt {hs : List HNode} {j : Nat} (x : HNode) (hj : hs.length < j) :
    (hs ++ [x]).getD j default = default := by
  rw [List.getD_eq_getElem?_getD, List.getElem?_eq_none (by simp; omega)]
  rfl

theorem length_pushChild (hs : List HNode) (p c : Nat) :
    (pushChild hs p c).length = hs.length := by
  unfold pushChild
  cases hh : hs.get? p <;> simp

theorem length_pushChildOpt (hs : List HNode) (p : Option Nat) (c : Nat) :
    (pushChildOpt hs p c).length = hs.length := by
  cases p with
  | none => rfl
  | some pp => exact length_pushChild hs pp c

theorem getD_pushChild (hs : List HNode) (p c j : Nat) :
    (pushChild hs p c).getD j default =
      if p = j ∧ p < hs.length then
        { hs.getD j default with children := (hs.getD j default).children ++ [c] }
      else hs.getD j default := by
  unfold pushChild
  cases hh : hs.get? p with
  | none =>
    have hp : ¬ p < hs.length := by
      intro hlt
      rw [get?_eq_some_getD hlt] at hh
      exact absurd hh (by simp)
    rw [if_neg (fun hc => hp hc.2)]
  | some hp =>
    rw [getD_set]
    by_cases hc : p = j ∧ p < hs.length
    · rw [if_pos hc, if_pos hc, ← hc.1, getD_of_get?_eq_some hh]
    · rw [if_neg hc, if_neg hc]

theorem getD_pushChildOpt_of_ne (hs : List HNode) {p : Option Nat} {j : Nat} (c : Nat)
    (hne : p ≠ some j) : (pushChildOpt hs p c).getD j default = hs.getD j default := by
  cases p with
  | none => rfl
  | some pp =>
    have hppj : pp ≠ j := fun hh => hne (by rw [hh])
    rw [pushChildOpt, getD_pushChild, if_neg (fun hc => hppj hc.1)]

theorem findAncestor_none (hs : List HNode) (lvl : Int) (fuel : Nat) :
    findAncestor hs lvl fuel none = none := by
  cases fuel <;> rfl

theorem findAncestor_succ (hs : List HNode) (lvl : Int) (fuel i : Nat) :
    findAncestor hs lvl (fuel + 1) (some i) =
      if lvl ≤ lvlAt hs i then findAncestor hs lvl fuel (parentAt hs i) else some i := rfl

/-- Soundness of the ancestor walk: a found ancestor lies at or below
the start index and has level strictly below the target. -/
theorem findAncestor_some_facts (hs : List HNode) (lvl : Int)
    (hdec : ∀ i p, parentAt hs i = some p → p < i) :
    ∀ fuel i j, findAncestor hs lvl fuel (some i) = some j → j ≤ i ∧ lvlAt hs j < lvl := by
  intro fuel
  induction fuel with
  | zero => intro i j h; exact absurd h (by simp [findAncestor])
  | succ fuel ih =>
    intro i j h
    rw [findAncestor_succ] at h
    by_cases hc : lvl ≤ lvlAt hs i
    · rw [if_pos hc] at h
      cases hp : parentAt hs i with
      | none =>
        rw [hp, findAncestor_none] at h
        exact absurd h (by simp)
      | some p =>
        rw [hp] at h
        have hpi : p < i := hdec i p hp
        obtain ⟨h1, h2⟩ := ih p j h
        exact ⟨by omega, h2⟩
    · rw [if_neg hc] at h
      obtain rfl : i = j := by injection h
      exact ⟨le_rfl, by omega⟩

/-- The walk result does not depend on the fuel, as long as the fuel
exceeds the start index. -/
theorem findAncestor_fuel_congr (hs : List HNode) (lvl : Int)
    (hdec : ∀ i p, parentAt hs i = some p → p < i) :
    ∀ i f f', i < f → i < f' → findAncestor hs lvl f (some i) = findAncestor hs lvl f' (some i) := by
  intro i
  induction i using Nat.strong_induction_on with
  | _ i ih =>
    intro f f' hf hf'
    obtain ⟨a, rfl⟩ : ∃ a, f = a + 1 := ⟨f - 1, by omega⟩
    obtain ⟨b, rfl⟩ : ∃ b, f' = b + 1 := ⟨f' - 1, by omega⟩
    rw [findAncestor_succ, findAncestor_succ]
    by_cases hc : lvl ≤ lvlAt hs i
    · rw [if_pos hc, if_pos hc]
      cases hp : parentAt hs i with
      | none => rw [findAncestor_none, findAncestor_none]
      | some p =>
        have hpi : p < i := hdec i p hp
        exact ih p hpi a b (by omega) (by omega)
    · rw [if_neg hc, if_neg hc]

/-- The walk only reads levels and parent indices below a bound, so two
arenas agreeing there walk identically. -/
theorem findAncestor_arena_congr (hs hs' : List HNode) (lvl : Int) (bound : Nat)
    (hagree : ∀ j, j < bound → lvlAt hs' j = lvlAt hs j ∧ parentAt hs' j = parentAt hs j)
    (hdec : ∀ i p, parentAt hs i = some p → p < i) :
    ∀ f i, i < bound → findAncestor hs' lvl f (some i) = findAncestor hs lvl f (some i) := by
  intro f
  induction f with
  | zero => intro i _; rfl
  | succ f ih =>
    intro i hi
    rw [findAncestor_succ, findAncestor_succ, (hagree i hi).1, (hagree i hi).2]
    by_cases hc : lvl ≤ lvlAt hs i
    · rw [if_pos hc, if_pos hc]
      cases hp : parentAt hs i with
      | none => rw [findAncestor_none, findAncestor_none]
      | some p =>
        have hpi : p < i := hdec i p hp
        exact ih p (by omega)
    · rw [if_neg hc, if_neg hc]

/-- Composition of two walks: walking to the first ancestor below `l0`
and then to the first below `lvl ≤ l0` is the same as walking directly,
because every ancestor skipped by the first walk has level at least
`l0 ≥ lvl`. -/
theorem findAncestor_compose (hs : List HNode) (lvl l0 : Int) (hle : lvl ≤ l0)
    (hdec : ∀ i p, parentAt hs i = some p → p < i) :
    ∀ i f, i < f →
      findAncestor hs lvl f (findAncestor hs l0 f (some i)) = findAncestor hs lvl f (some i) := by
  intro i
  induction i using Nat.strong_induction_on with
  | _ i ih =>
    intro f hf
    obtain ⟨a, rfl⟩ : ∃ a, f = a + 1 := ⟨f - 1, by omega⟩
    rw [findAncestor_succ hs l0, findAncestor_succ hs lvl a i]
    by_cases hc0 : l0 ≤ lvlAt hs i
    · rw [if_pos hc0, if_pos (by omega : lvl ≤ lvlAt hs i)]
      cases hp : parentAt hs i with
      | none => rw [findAncestor_none, findAncestor_none, findAncestor_none]
      | some p =>
        have hpi : p < i := hdec i p hp
        cases hinner : findAncestor hs l0 a (some p) with
        | none =>
          have := ih p hpi a (by omega)
          rw [hinner, findAncestor_none] at this
          rw [findAncestor_none, this]
        | some j =>
          have hj := (findAncestor_some_facts hs l0 hdec a p j hinner).1
          have := ih p hpi a (by omega)
          rw [hinner] at this
          rw [← this]
          exact findAncestor_fuel_congr hs lvl hdec j (a + 1) a (by omega) (by omega)
    · rw [if_neg hc0]
      rw [findAncestor_succ]

theorem find?_congr {α : Type} (p q : α → Bool) :
    ∀ l : List α, (∀ x ∈ l, p x = q x) → l.find? p = l.find? q := by
  intro l
  induction l with
  | nil => intro _; rfl
  | cons x xs ih =>
    intro hx
    have hpx := hx x (List.mem_cons_self x xs)
    by_cases hc : p x = true
    · rw [List.find?_cons_of_pos xs hc, List.find?_cons_of_pos xs (by rw [← hpx]; exact hc)]
    · rw [List.find?_cons_of_neg xs hc, List.find?_cons_of_neg xs (by rw [← hpx]; exact hc),
        ih (fun y hy => hx y (List.mem_cons_of_mem x hy))]

theorem nearestSmallerBefore_zero (hs : List HNode) (lvl : Int) :
    nearestSmallerBefore hs 0 lvl = none := rfl

theorem nearestSmallerBefore_succ (hs : List HNode) (n : Nat) (lvl : Int) :
    nearestSmallerBefore hs (n + 1) lvl =
      if lvlAt hs n < lvl then some n else nearestSmallerBefore hs n lvl := by
  rw [nearestSmallerBefore, List.range_succ, List.reverse_append]
  show List.find? _ (n :: (List.range n).reverse) = _
  by_cases hc : lvlAt hs n < lvl
  · rw [List.find?_cons_of_pos _ (by simpa using hc), if_pos hc]
  · rw [List.find?_cons_of_neg _ (by simpa using hc), if_neg hc]
    rfl

theorem nearestSmallerBefore_arena_congr (hs hs' : List HNode) (i : Nat) (lvl : Int)
    (hagree : ∀ j, j < i → lvlAt hs' j = lvlAt hs j) :
    nearestSmallerBefore hs' i lvl = nearestSmallerBefore hs i lvl := by
  unfold nearestSmallerBefore
  exact find?_congr _ _ _ (fun j hj => by
    have hji : j < i := by
      have := List.mem_reverse.mp hj
      exact List.mem_range.mp this
    rw [hagree j hji])

theorem nearestSmallerBefore_some_facts (hs : List HNode) (i : Nat) (lvl : Int) (p : Nat)
    (h : nearestSmallerBefore hs i lvl = some p) : p < i ∧ lvlAt hs p < lvl := by
  have h1 := List.find?_some h
  have h2 := List.mem_of_find?_eq_some h
  refine ⟨List.mem_range.mp (List.mem_reverse.mp h2), by simpa using h1⟩

end HeaderAdjuster

namespace HeaderAdjuster

/-- Length of the leading hash run of a line. -/
def hashRunLen (line : String) : Nat := (line.toList.takeWhile (fun ch => ch = '#')).length

/-- Whether the leading hash run is followed by at least one whitespace
character. -/
def hashFollowedByWs (line : String) : Bool :=
  match line.toList.drop (hashRunLen line) with
  | [] => false
  | ch :: _ => isJsWhitespace ch

theorem matchHeader_some_facts {line : String} {k : Nat} {c : String}
    (hm : matchHeader line = some (k, c)) : 1 ≤ k ∧ k ≤ 6 ∧ k = hashRunLen line := by
  simp only [matchHeader] at hm
  split at hm
  · next hcond =>
    split at hm
    · exact absurd hm (by simp)
    · split at hm
      · simp only [Option.some.injEq, Prod.mk.injEq] at hm
        obtain ⟨hk, _⟩ := hm
        subst hk
        exact ⟨hcond.1, hcond.2, rfl⟩
      · exact absurd hm (by simp)
  · exact absurd hm (by simp)

theorem matchHeader_none_of_run_gt_six {line : String} (h : 6 < hashRunLen line) :
    matchHeader line = none := by
  simp only [matchHeader]
  rw [if_neg]
  intro hc
  exact absurd hc.2 (by unfold hashRunLen at h; omega)

theorem matchHeader_none_of_no_ws {line : String} (h : hashFollowedByWs line = false) :
    matchHeader line = none := by
  simp only [matchHeader]
  split
  · next hcond =>
    unfold hashFollowedByWs hashRunLen at h
    cases hdrop : line.toList.drop (line.toList.takeWhile (fun ch => ch = '#')).length with
    | nil => rfl
    | cons ch rest =>
      rw [hdrop] at h
      have h2 : isJsWhitespace ch = false := h
      simp [h2]
  · rfl

theorem parentAt_oob {hs : List HNode} {i : Nat} (h : hs.length ≤ i) : parentAt hs i = none := by
  unfold parentAt
  rw [List.getD_eq_getElem?_getD, List.getElem?_eq_none h]
  rfl

theorem step_getD_lt_ne (hs : List HNode) (x : HNode) (P : Option Nat) {j : Nat}
    (hj : j < hs.length) (hne : P ≠ some j) :
    (pushChildOpt (hs ++ [x]) P hs.length).getD j default = hs.getD j default := by
  rw [getD_pushChildOpt_of_ne _ _ hne, getD_append_lt x hj]

theorem step_getD_parent (hs : List HNode) (x : HNode) {pp : Nat} (hpp : pp < hs.length) :
    (pushChildOpt (hs ++ [x]) (some pp) hs.length).getD pp default
      = { hs.getD pp default with
          children := (hs.getD pp default).children ++ [hs.length] } := by
  rw [pushChildOpt, getD_pushChild,
    if_pos ⟨rfl, by rw [List.length_append]; omega⟩, getD_append_lt x hpp]

theorem step_getD_new (hs : List HNode) (x : HNode) (P : Option Nat)
    (hPlt : ∀ pp, P = some pp → pp < hs.length) :
    (pushChildOpt (hs ++ [x]) P hs.length).getD hs.length default = x := by
  cases P with
  | none => exact getD_append_self x
  | some pp =>
    have hpp := hPlt pp rfl
    rw [pushChildOpt, getD_pushChild, if_neg (fun hc => absurd hc.1 (by omega)),
      getD_append_self]

theorem step_lvlAt_lt (hs : List HNode) (x : HNode) (P : Option Nat) {j : Nat}
    (hj : j < hs.length) : lvlAt (pushChildOpt (hs ++ [x]) P hs.length) j = lvlAt hs j := by
  by_cases hP : P = some j
  · rw [hP, lvlAt, lvlAt, step_getD_parent hs x hj]
  · rw [lvlAt, lvlAt, step_getD_lt_ne hs x P hj hP]

theorem step_origAt_lt (hs : List HNode) (x : HNode) (P : Option Nat) {j : Nat}
    (hj : j < hs.length) : origAt (pushChildOpt (hs ++ [x]) P hs.length) j = origAt hs j := by
  by_cases hP : P = some j
  · rw [hP, origAt, origAt, step_getD_parent hs x hj]
  · rw [origAt, origAt, step_getD_lt_ne hs x P hj hP]

theorem step_parentAt_lt (hs : List HNode) (x : HNode) (P : Option Nat) {j : Nat}
    (hj : j < hs.length) : parentAt (pushChildOpt (hs ++ [x]) P hs.length) j = parentAt hs j := by
  by_cases hP : P = some j
  · rw [hP, parentAt, parentAt, step_getD_parent hs x hj]
  · rw [parentAt, parentAt, step_getD_lt_ne hs x P hj hP]

theorem step_lineAt_lt (hs : List HNode) (x : HNode) (P : Option Nat) {j : Nat}
    (hj : j < hs.length) : lineAt (pushChildOpt (hs ++ [x]) P hs.length) j = lineAt hs j := by
  by_cases hP : P = some j
  · rw [hP, lineAt, lineAt, step_getD_parent hs x hj]
  · rw [lineAt, lineAt, step_getD_lt_ne hs x P hj hP]

theorem step_contentAt_lt (hs : List HNode) (x : HNode) (P : Option Nat) {j : Nat}
    (hj : j < hs.length) : contentAt (pushChildOpt (hs ++ [x]) P hs.length) j = contentAt hs j := by
  by_cases hP : P = some j
  · rw [hP, contentAt, contentAt, step_getD_parent hs x hj]
  · rw [contentAt, contentAt, step_getD_lt_ne hs x P hj hP]

theorem step_childrenAt_lt_ne (hs : List HNode) (x : HNode) (P : Option Nat) {j : Nat}
    (hj : j < hs.length) (hne : P ≠ some j) :
    childrenAt (pushChildOpt (hs ++ [x]) P hs.length) j = childrenAt hs j := by
  rw [childrenAt, childrenAt, step_getD_lt_ne hs x P hj hne]

theorem step_childrenAt_parent (hs : List HNode) (x : HNode) {pp : Nat} (hpp : pp < hs.length) :
    childrenAt (pushChildOpt (hs ++ [x]) (some pp) hs.length) pp
      = childrenAt hs pp ++ [hs.length] := by
  rw [childrenAt, childrenAt, step_getD_parent hs x hpp]

theorem step_length (hs : List HNode) (x : HNode) (P : Option Nat) :
    (pushChildOpt (hs ++ [x]) P hs.length).length = hs.length + 1 := by
  rw [length_pushChildOpt, List.length_append]
  rfl

end HeaderAdjuster

namespace HeaderAdjuster

/-- Invariant carried by the parser loop over the arena and the index of
the last emitted node: nodes have fresh levels in range, every parent is
the nearest preceding node with strictly smaller level, children arrays
are coherent with the parent fields, every node comes from a matched
buffer line, and the parent computation for any incoming level equals
the nearest-smaller search over the whole arena. -/
structure PInv (buffer : List String) (hs : List HNode) (lastIdx : Option Nat) : Prop where
  last_none : lastIdx = none → hs = []
  last_some : ∀ l, lastIdx = some l → l + 1 = hs.length
  orig_lb : ∀ i, i < hs.length → 1 ≤ origAt hs i
  orig_ub : ∀ i, i < hs.length → origAt hs i ≤ 6
  fresh : ∀ i, i < hs.length → lvlAt hs i = origAt hs i
  parent_near : ∀ i, i < hs.length → parentAt hs i = nearestSmallerBefore hs i (lvlAt hs i)
  children_eq : ∀ i, i < hs.length →
    childrenAt hs i = (List.range hs.length).filter (fun j => decide (parentAt hs j = some i))
  prov : ∀ i, i < hs.length → ∃ j, j < buffer.length ∧ lineAt hs i = j + 1 ∧
    ∃ k, matchHeader (buffer.getD j default) = some (k, contentAt hs i) ∧ origAt hs i = (k : Int)
  resolve_eq : ∀ lvl, resolveParent hs lastIdx lvl = nearestSmallerBefore hs hs.length lvl

theorem PInv.hdec {buffer : List String} {hs : List HNode} {lastIdx : Option Nat}
    (inv : PInv buffer hs lastIdx) : ∀ i p, parentAt hs i = some p → p < i := by
  intro i p hp
  by_cases hi : i < hs.length
  · rw [inv.parent_near i hi] at hp
    exact (nearestSmallerBefore_some_facts _ _ _ _ hp).1
  · rw [parentAt_oob (by omega)] at hp
    exact absurd hp (by simp)

theorem PInv.parent_orig {buffer : List String} {hs : List HNode} {lastIdx : Option Nat}
    (inv : PInv buffer hs lastIdx) :
    ∀ i p, i < hs.length → parentAt hs i = some p → origAt hs p < origAt hs i := by
  intro i p hi hp
  rw [inv.parent_near i hi] at hp
  obtain ⟨hpi, hplvl⟩ := nearestSmallerBefore_some_facts _ _ _ _ hp
  rw [inv.fresh i hi, inv.fresh p (by omega)] at hplvl
  exact hplvl

theorem pinv_nil (buffer : List String) : PInv buffer [] none where
  last_none := fun _ => rfl
  last_some := fun l hl => absurd hl (by simp)
  orig_lb := fun i hi => absurd hi (by simp)
  orig_ub := fun i hi => absurd hi (by simp)
  fresh := fun i hi => absurd hi (by simp)
  parent_near := fun i hi => absurd hi (by simp)
  children_eq := fun i hi => absurd hi (by simp)
  prov := fun i hi => absurd hi (by simp)
  resolve_eq := fun lvl => rfl

end HeaderAdjuster

namespace HeaderAdjuster

/-- One parser step preserves the loop invariant: appending the node for
a matched line, with its parent resolved by the upward walk, keeps the
arena well formed and keeps the parent computation equal to the
nearest-smaller search. -/
theorem pinv_step (buffer : List String) (hs : List HNode) (lastIdx : Option Nat)
    (inv : PInv buffer hs lastIdx) (i k : Nat) (content : String)
    (hib : i < buffer.length)
    (hmatch : matchHeader (buffer.getD i default) = some (k, content)) :
    PInv buffer
      (pushChildOpt
        (hs ++ [⟨(k : Int), (k : Int), i + 1, content, resolveParent hs lastIdx (k : Int), []⟩])
        (resolveParent hs lastIdx (k : Int)) hs.length)
      (some hs.length) := by
  obtain ⟨hk1, hk6, _⟩ := matchHeader_some_facts hmatch
  have hdec := inv.hdec
  set P := resolveParent hs lastIdx (k : Int) with hP
  set x : HNode := ⟨(k : Int), (k : Int), i + 1, content, P, []⟩ with hx
  set hs2 := pushChildOpt (hs ++ [x]) P hs.length with hhs2
  have hPnear : P = nearestSmallerBefore hs hs.length (k : Int) := by
    rw [hP]
    exact inv.resolve_eq (k : Int)
  have hPlt : ∀ pp, P = some pp → pp < hs.length := by
    intro pp hpp
    rw [hPnear] at hpp
    exact (nearestSmallerBefore_some_facts _ _ _ _ hpp).1
  have hlen2 : hs2.length = hs.length + 1 := by
    rw [hhs2]
    exact step_length hs x P
  have hagree : ∀ j, j < hs.length → lvlAt hs2 j = lvlAt hs j ∧ parentAt hs2 j = parentAt hs j := by
    intro j hj
    constructor
    · rw [hhs2]
      exact step_lvlAt_lt hs x P hj
    · rw [hhs2]
      exact step_parentAt_lt hs x P hj
  have hlvl_n : lvlAt hs2 hs.length = (k : Int) := by
    rw [hhs2, lvlAt, step_getD_new hs x P hPlt, hx]
  have horig_n : origAt hs2 hs.length = (k : Int) := by
    rw [hhs2, origAt, step_getD_new hs x P hPlt, hx]
  have hpar_n : parentAt hs2 hs.length = P := by
    rw [hhs2, parentAt, step_getD_new hs x P hPlt, hx]
  have hline_n : lineAt hs2 hs.length = i + 1 := by
    rw [hhs2, lineAt, step_getD_new hs x P hPlt, hx]
  have hcontent_n : contentAt hs2 hs.length = content := by
    rw [hhs2, contentAt, step_getD_new hs x P hPlt, hx]
  have hchildren_n : childrenAt hs2 hs.length = [] := by
    rw [hhs2, childrenAt, step_getD_new hs x P hPlt, hx]
  refine ⟨?_, ?_, ?_, ?_, ?_, ?_, ?_, ?_, ?_⟩
  · intro h
    exact absurd h (by simp)
  · intro l hl
    obtain rfl : hs.length = l := by injection hl
    rw [hlen2]
  · intro j hj
    rw [hlen2] at hj
    by_cases hjn : j < hs.length
    · have ht : origAt hs2 j = origAt hs j := by
        rw [hhs2]
        exact step_origAt_lt hs x P hjn
      rw [ht]
      exact inv.orig_lb j hjn
    · obtain rfl : j = hs.length := by omega
      rw [horig_n]
      omega
  · intro j hj
    rw [hlen2] at hj
    by_cases hjn : j < hs.length
    · have ht : origAt hs2 j = origAt hs j := by
        rw [hhs2]
        exact step_origAt_lt hs x P hjn
      rw [ht]
      exact inv.orig_ub j hjn
    · obtain rfl : j = hs.length := by omega
      rw [horig_n]
      omega
  · intro j hj
    rw [hlen2] at hj
    by_cases hjn : j < hs.length
    · have h1 : origAt hs2 j = origAt hs j := by
        rw [hhs2]
        exact step_origAt_lt hs x P hjn
      rw [(hagree j hjn).1, h1]
      exact inv.fresh j hjn
    · obtain rfl : j = hs.length := by omega
      rw [horig_n, hlvl_n]
  · intro j hj
    rw [hlen2] at hj
    by_cases hjn : j < hs.length
    · have h3 : nearestSmallerBefore hs2 j (lvlAt hs j)
          = nearestSmallerBefore hs j (lvlAt hs j) :=
        nearestSmallerBefore_arena_congr hs hs2 j (lvlAt hs j)
          (fun j' hj' => (hagree j' (by omega)).1)
      rw [(hagree j hjn).1, (hagree j hjn).2, h3]
      exact inv.parent_near j hjn
    · obtain rfl : j = hs.length := by omega
      have h3 : nearestSmallerBefore hs2 hs.length ((k : Int))
          = nearestSmallerBefore hs hs.length ((k : Int)) :=
        nearestSmallerBefore_arena_congr hs hs2 hs.length ((k : Int))
          (fun j' hj' => (hagree j' hj').1)
      rw [hpar_n, hlvl_n, h3]
      exact hPnear
  · intro i0 hi0
    rw [hlen2] at hi0
    rw [hlen2, List.range_succ, List.filter_append]
    have hfilter_lt : (List.range hs.length).filter (fun j => decide (parentAt hs2 j = some i0))
        = (List.range hs.length).filter (fun j => decide (parentAt hs j = some i0)) := by
      apply List.filter_congr
      intro j hj
      rw [(hagree j (List.mem_range.mp hj)).2]
    rw [hfilter_lt]
    by_cases hi0n : i0 < hs.length
    · by_cases hP0 : P = some i0
      · have hL : childrenAt hs2 i0 = childrenAt hs i0 ++ [hs.length] := by
          rw [hhs2, hP0]
          exact step_childrenAt_parent hs x hi0n
        have htail : List.filter (fun j => decide (parentAt hs2 j = some i0)) [hs.length]
            = [hs.length] := by
          simp [List.filter_cons, hpar_n, hP0]
        rw [hL, htail, inv.children_eq i0 hi0n]
      · have hL : childrenAt hs2 i0 = childrenAt hs i0 := by
          rw [hhs2]
          exact step_childrenAt_lt_ne hs x P hi0n hP0
        have htail : List.filter (fun j => decide (parentAt hs2 j = some i0)) [hs.length]
            = [] := by
          simp [List.filter_cons, hpar_n]
          intro hcc
          exact hP0 hcc
        rw [hL, htail, inv.children_eq i0 hi0n, List.append_nil]
    · obtain rfl : i0 = hs.length := by omega
      have hhead : (List.range hs.length).filter
          (fun j => decide (parentAt hs j = some hs.length)) = [] := by
        apply List.filter_eq_nil_iff.mpr
        intro j hj
        simp only [decide_eq_true_eq]
        intro hpj
        have := hdec j hs.length hpj
        have := List.mem_range.mp hj
        omega
      have htail : List.filter (fun j => decide (parentAt hs2 j = some hs.length)) [hs.length]
          = [] := by
        simp [List.filter_cons, hpar_n]
        intro hcc
        have := hPlt hs.length hcc
        omega
      rw [hchildren_n, hhead, htail]
      rfl
  · intro j hj
    rw [hlen2] at hj
    by_cases hjn : j < hs.length
    · have h1 : lineAt hs2 j = lineAt hs j := by
        rw [hhs2]
        exact step_lineAt_lt hs x P hjn
      have h2 : contentAt hs2 j = contentAt hs j := by
        rw [hhs2]
        exact step_contentAt_lt hs x P hjn
      have h3 : origAt hs2 j = origAt hs j := by
        rw [hhs2]
        exact step_origAt_lt hs x P hjn
      rw [h1, h2, h3]
      exact inv.prov j hjn
    · obtain rfl : j = hs.length := by omega
      exact ⟨i, hib, by rw [hline_n], k, by rw [hcontent_n]; exact hmatch, by rw [horig_n]⟩
  · intro lvl
    have hrp2 : resolveParent hs2 (some hs.length) lvl
        = if lvl > lvlAt hs2 hs.length then some hs.length
          else findAncestor hs2 lvl hs2.length (parentAt hs2 hs.length) := rfl
    rw [hrp2, hlvl_n, hpar_n, hlen2, nearestSmallerBefore_succ, hlvl_n]
    by_cases hcc : (k : Int) < lvl
    · rw [if_pos hcc, if_pos hcc]
    · rw [if_neg hcc, if_neg hcc]
      have hns2 : nearestSmallerBefore hs2 hs.length lvl
          = nearestSmallerBefore hs hs.length lvl :=
        nearestSmallerBefore_arena_congr hs hs2 hs.length lvl (fun j' hj' => (hagree j' hj').1)
      rw [hns2, ← inv.resolve_eq lvl]
      have hFA2 : ∀ q, q < hs.length →
          findAncestor hs2 lvl (hs.length + 1) (some q)
            = findAncestor hs lvl (hs.length + 1) (some q) :=
        fun q hq => findAncestor_arena_congr hs hs2 lvl hs.length hagree hdec (hs.length + 1) q hq
      cases hlast : lastIdx with
      | none =>
        have hP_none : P = none := by
          rw [hP, hlast]
          rfl
        rw [hP_none, findAncestor_none]
        rfl
      | some l =>
        have hl1 : l + 1 = hs.length := inv.last_some l hlast
        have hln : l < hs.length := by omega
        have hPval : P = if (k : Int) > lvlAt hs l then some l
            else findAncestor hs (k : Int) hs.length (parentAt hs l) := by
          rw [hP, hlast]
          rfl
        show findAncestor hs2 lvl (hs.length + 1) P
          = if lvl > lvlAt hs l then some l else findAncestor hs lvl hs.length (parentAt hs l)
        by_cases hLl : lvlAt hs l < lvl
        · have hPsome : P = some l := by
            rw [hPval, if_pos (by omega)]
          rw [hPsome, hFA2 l hln, if_pos hLl, findAncestor_succ, if_neg (by omega)]
        · rw [if_neg hLl]
          by_cases hkl : lvlAt hs l < (k : Int)
          · have hPsome : P = some l := by
              rw [hPval, if_pos hkl]
            rw [hPsome, hFA2 l hln, findAncestor_succ, if_pos (by omega)]
          · have hPfa : P = findAncestor hs (k : Int) hs.length (parentAt hs l) := by
              rw [hPval, if_neg hkl]
            cases hpl : parentAt hs l with
            | none =>
              rw [hpl, findAncestor_none] at hPfa
              rw [hPfa, findAncestor_none, findAncestor_none]
            | some p0 =>
              have hp0 : p0 < l := hdec l p0 hpl
              rw [hpl] at hPfa
              have hcomp := findAncestor_compose hs lvl (k : Int) (by omega) hdec p0
                hs.length (by omega)
              cases hFA : findAncestor hs (k : Int) hs.length (some p0) with
              | none =>
                rw [hFA] at hPfa hcomp
                rw [findAncestor_none] at hcomp
                rw [hPfa, findAncestor_none, ← hcomp]
              | some j =>
                have hjle : j ≤ p0 :=
                  (findAncestor_some_facts hs (k : Int) hdec hs.length p0 j hFA).1
                rw [hFA] at hPfa hcomp
                rw [hPfa, hFA2 j (by omega),
                  findAncestor_fuel_congr hs lvl hdec j (hs.length + 1) hs.length
                    (by omega) (by omega),
                  hcomp]

end HeaderAdjuster

namespace HeaderAdjuster

theorem parseLinesGo_pinv (buffer : List String) :
    ∀ idxs hs lastIdx, PInv buffer hs lastIdx → (∀ i ∈ idxs, i < buffer.length) →
      ∃ lastFinal, PInv buffer (parseLinesGo buffer idxs hs lastIdx) lastFinal := by
  intro idxs
  induction idxs with
  | nil =>
    intro hs lastIdx inv _
    exact ⟨lastIdx, inv⟩
  | cons i rest ih =>
    intro hs lastIdx inv hmem
    cases hm : matchHeader (buffer.getD i default) with
    | none =>
      have heq : parseLinesGo buffer (i :: rest) hs lastIdx
          = parseLinesGo buffer rest hs lastIdx := by
        simp only [parseLinesGo, hm]
      rw [heq]
      exact ih hs lastIdx inv (fun i' hi' => hmem i' (List.mem_cons_of_mem i hi'))
    | some kc =>
      obtain ⟨k, content⟩ := kc
      have heq : parseLinesGo buffer (i :: rest) hs lastIdx
          = parseLinesGo buffer rest
            (pushChildOpt
              (hs ++ [⟨(k : Int), (k : Int), i + 1, content,
                resolveParent hs lastIdx (k : Int), []⟩])
              (resolveParent hs lastIdx (k : Int)) hs.length)
            (some hs.length) := by
        simp only [parseLinesGo, hm]
      rw [heq]
      exact ih _ _
        (pinv_step buffer hs lastIdx inv i k content (hmem i (List.mem_cons_self i rest)) hm)
        (fun i' hi' => hmem i' (List.mem_cons_of_mem i hi'))

theorem parseHeaders_pinv (buffer : List String) (fromLine toLine : Int) :
    ∃ lastFinal, PInv buffer (parseHeaders buffer fromLine toLine) lastFinal := by
  apply parseLinesGo_pinv buffer _ [] none (pinv_nil buffer)
  intro i hi
  exact List.mem_range.mp (List.mem_filter.mp hi).1

/-- The arena output by the parser is well formed. -/
theorem parseHeaders_wf (buffer : List String) (fromLine toLine : Int) :
    ForestWF (parseHeaders buffer fromLine toLine) := by
  obtain ⟨lastFinal, inv⟩ := parseHeaders_pinv buffer fromLine toLine
  exact ⟨inv.orig_lb, inv.orig_ub, inv.fresh, inv.hdec, inv.parent_orig, inv.children_eq⟩

/-- Every parsed node records a line of the buffer that matches the
header pattern with the node's original level and content. -/
theorem parseHeaders_prov (buffer : List String) (fromLine toLine : Int) :
    ∀ i, i < (parseHeaders buffer fromLine toLine).length →
      ∃ j, j < buffer.length ∧ lineAt (parseHeaders buffer fromLine toLine) i = j + 1 ∧
      ∃ k, matchHeader (buffer.getD j default)
          = some (k, contentAt (parseHeaders buffer fromLine toLine) i) ∧
        origAt (parseHeaders buffer fromLine toLine) i = (k : Int) := by
  obtain ⟨lastFinal, inv⟩ := parseHeaders_pinv buffer fromLine toLine
  exact inv.prov

/-- Every parsed node's parent is the nearest preceding node with
strictly smaller level. -/
theorem parseHeaders_parent_near (buffer : List String) (fromLine toLine : Int) :
    ∀ i, i < (parseHeaders buffer fromLine toLine).length →
      parentAt (parseHeaders buffer fromLine toLine) i
        = nearestSmallerBefore (parseHeaders buffer fromLine toLine) i
            (lvlAt (parseHeaders buffer fromLine toLine) i) := by
  obtain ⟨lastFinal, inv⟩ := parseHeaders_pinv buffer fromLine toLine
  exact inv.parent_near

end HeaderAdjuster

namespace HeaderAdjuster

/-- Adjusted forests keep strict parent/child ordering and levels
within one and six, for either operation. -/
theorem updateHeaderLevels_invariants (hs : List HNode) (op : AdjustmentOperation) (m : Int)
    (hm : 1 ≤ m) (wf : ForestWF hs) :
    (∀ j p, j < hs.length → parentAt hs j = some p →
      lvlAt (updateHeaderLevels hs op m) p < lvlAt (updateHeaderLevels hs op m) j) ∧
    (∀ j c, j < hs.length → c ∈ childrenAt hs j →
      lvlAt (updateHeaderLevels hs op m) j < lvlAt (updateHeaderLevels hs op m) c) ∧
    (∀ j, j < hs.length →
      1 ≤ lvlAt (updateHeaderLevels hs op m) j ∧ lvlAt (updateHeaderLevels hs op m) j ≤ 6) := by
  cases op with
  | increase =>
    rw [updateHeaderLevels_increase_eq]
    obtain ⟨inv1, inv2⟩ := procTop_increase_inv hs m hm wf hs.length le_rfl
    refine ⟨?_, ?_, ?_⟩
    · intro j p hj hp
      have hpj : p < j := wf.parent_lt j p hp
      have hmem : j ∈ childrenAt hs p := (wf.mem_children (by omega) j).mpr ⟨hj, hp⟩
      exact (inv2 p (by omega) (by omega)).2.2.2 j hmem
    · intro j c hj hc
      exact (inv2 j (by omega) hj).2.2.2 c hc
    · intro j hj
      exact ⟨(inv2 j (by omega) hj).1, (inv2 j (by omega) hj).2.1⟩
  | decrease =>
    rw [updateHeaderLevels_decrease_eq]
    obtain ⟨inv1, inv2⟩ := procUp_decrease_inv hs m hm wf hs.length le_rfl
    refine ⟨?_, ?_, ?_⟩
    · intro j p hj hp
      exact (inv2 j hj).2.2.2 p hp
    · intro j c hj hc
      obtain ⟨hclen, hcp⟩ := (wf.mem_children hj c).mp hc
      exact (inv2 c hclen).2.2.2 j hcp
    · intro j hj
      exact ⟨(inv2 j hj).1, (inv2 j hj).2.1⟩

/-- The increase operation never takes a node below its original level. -/
theorem updateHeaderLevels_increase_ge (hs : List HNode) (m : Int) (hm : 1 ≤ m)
    (wf : ForestWF hs) :
    ∀ j, j < hs.length → origAt hs j ≤ lvlAt (updateHeaderLevels hs .increase m) j := by
  rw [updateHeaderLevels_increase_eq]
  obtain ⟨inv1, inv2⟩ := procTop_increase_inv hs m hm wf hs.length le_rfl
  exact fun j hj => (inv2 j (by omega) hj).2.2.1

/-- The decrease operation never takes a node above its original level. -/
theorem updateHeaderLevels_decrease_le (hs : List HNode) (m : Int) (hm : 1 ≤ m)
    (wf : ForestWF hs) :
    ∀ j, j < hs.length → lvlAt (updateHeaderLevels hs .decrease m) j ≤ origAt hs j := by
  rw [updateHeaderLevels_decrease_eq]
  obtain ⟨inv1, inv2⟩ := procUp_decrease_inv hs m hm wf hs.length le_rfl
  exact fun j hj => (inv2 j hj).2.2.1

theorem length_updateHeaderLevels (hs : List HNode) (op : AdjustmentOperation) (m : Int) :
    (updateHeaderLevels hs op m).length = hs.length := by
  cases op with
  | increase => rw [updateHeaderLevels_increase_eq, length_procTop]
  | decrease => rw [updateHeaderLevels_decrease_eq, length_procUp]

theorem origAt_updateHeaderLevels (hs : List HNode) (op : AdjustmentOperation) (m : Int)
    (j : Nat) : origAt (updateHeaderLevels hs op m) j = origAt hs j := by
  cases op with
  | increase => rw [updateHeaderLevels_increase_eq, origAt_procTop]
  | decrease => rw [updateHeaderLevels_decrease_eq, origAt_procUp]

theorem parentAt_updateHeaderLevels (hs : List HNode) (op : AdjustmentOperation) (m : Int)
    (j : Nat) : parentAt (updateHeaderLevels hs op m) j = parentAt hs j := by
  cases op with
  | increase => rw [updateHeaderLevels_increase_eq, parentAt_procTop]
  | decrease => rw [updateHeaderLevels_decrease_eq, parentAt_procUp]

theorem childrenAt_updateHeaderLevels (hs : List HNode) (op : AdjustmentOperation) (m : Int)
    (j : Nat) : childrenAt (updateHeaderLevels hs op m) j = childrenAt hs j := by
  cases op with
  | increase => rw [updateHeaderLevels_increase_eq, childrenAt_procTop]
  | decrease => rw [updateHeaderLevels_decrease_eq, childrenAt_procUp]

theorem lineAt_updateHeaderLevels (hs : List HNode) (op : AdjustmentOperation) (m : Int)
    (j : Nat) : lineAt (updateHeaderLevels hs op m) j = lineAt hs j := by
  cases op with
  | increase => rw [updateHeaderLevels_increase_eq, lineAt_procTop]
  | decrease => rw [updateHeaderLevels_decrease_eq, lineAt_procUp]

theorem contentAt_updateHeaderLevels (hs : List HNode) (op : AdjustmentOperation) (m : Int)
    (j : Nat) : contentAt (updateHeaderLevels hs op m) j = contentAt hs j := by
  cases op with
  | increase => rw [updateHeaderLevels_increase_eq, contentAt_procTop]
  | decrease => rw [updateHeaderLevels_decrease_eq, contentAt_procUp]

/-- Fresh snapshot of the original levels from the current levels, as a
renewed parse of the adjusted document would produce. -/
def resnapshotOriginal (hs : List HNode) : List HNode :=
  hs.map (fun h => { h with originalLevel := h.level })

theorem getD_resnapshot (hs : List HNode) (i : Nat) :
    (resnapshotOriginal hs).getD i default
      = { hs.getD i default with originalLevel := (hs.getD i default).level } := by
  rw [List.getD_eq_getElem?_getD, List.getD_eq_getElem?_getD, resnapshotOriginal,
    List.getElem?_map]
  cases hs[i]? <;> rfl

theorem length_resnapshot (hs : List HNode) :
    (resnapshotOriginal hs).length = hs.length := by
  rw [resnapshotOriginal, List.length_map]

theorem lvlAt_resnapshot (hs : List HNode) (i : Nat) :
    lvlAt (resnapshotOriginal hs) i = lvlAt hs i := by
  rw [lvlAt, getD_resnapshot]
  rfl

theorem origAt_resnapshot (hs : List HNode) (i : Nat) :
    origAt (resnapshotOriginal hs) i = lvlAt hs i := by
  rw [origAt, getD_resnapshot]
  rfl

theorem parentAt_resnapshot (hs : List HNode) (i : Nat) :
    parentAt (resnapshotOriginal hs) i = parentAt hs i := by
  rw [parentAt, getD_resnapshot]
  rfl

end HeaderAdjuster

namespace HeaderAdjuster

/-- When no clamp can fire, the decrease pass subtracts the magnitude
exactly: with every original level at least `m + 1` and nesting strict,
neither the floor clamp nor the parent constraint triggers. -/
theorem decrease_exact (hs : List HNode) (m : Int) (hm : 1 ≤ m)
    (hpo : ∀ i p, i < hs.length → parentAt hs i = some p → origAt hs p < origAt hs i)
    (hdec : ∀ i p, parentAt hs i = some p → p < i)
    (hlb : ∀ i, i < hs.length → 1 ≤ origAt hs i - m)
    (hub : ∀ i, i < hs.length → origAt hs i ≤ 6) :
    ∀ i, i < hs.length → lvlAt (updateHeaderLevels hs .decrease m) i = origAt hs i - m := by
  suffices h : ∀ k, k ≤ hs.length →
      (∀ j, j < k → lvlAt (procUp .decrease m hs k) j = origAt hs j - m) by
    intro i hi
    rw [updateHeaderLevels_decrease_eq]
    exact (h hs.length le_rfl) i hi
  intro k
  induction k with
  | zero => exact fun _ j hj => absurd hj (by omega)
  | succ k ih =>
    intro hk
    have ih1 := ih (by omega)
    have hklt : k < hs.length := by omega
    have hstep : procUp .decrease m hs (k + 1)
        = adjustOne .decrease m (procUp .decrease m hs k) k := rfl
    have hnode_orig : ((procUp .decrease m hs k).getD k default).originalLevel = origAt hs k :=
      origAt_procUp .decrease m hs k k
    have hnode_parent : ((procUp .decrease m hs k).getD k default).parent = parentAt hs k :=
      parentAt_procUp .decrease m hs k k
    intro j hj
    by_cases hjk : j = k
    · subst hjk
      rw [hstep, lvlAt_adjustOne_self_decrease m _ (by rw [length_procUp]; omega)]
      have h1 := hlb j (by omega)
      have h2 := hub j (by omega)
      cases hpar : parentAt hs j with
      | none =>
        rw [decreaseTarget_parent_none _ _ _ (by rw [hnode_parent, hpar]), hnode_orig,
          max_eq_right h1, min_eq_left (by omega)]
      | some p =>
        have hplt : p < j := hdec j p hpar
        have hpproc : lvlAt (procUp .decrease m hs j) p = origAt hs p - m := ih1 p (by omega)
        have h3 := hpo j p (by omega) hpar
        rw [decreaseTarget_parent_some _ _ _ p (by rw [hnode_parent, hpar]), hnode_orig, hpproc,
          max_eq_right h1, if_neg (by omega), min_eq_left (by omega)]
    · rw [hstep, lvlAt_adjustOne_ne _ _ _ (by omega)]
      exact ih1 j (by omega)

/-- Claim C1: for every forest produced by the parser and every positive
magnitude, after the adjuster runs with either operation every node with
a parent sits strictly below its parent in level ordering terms (its
level is strictly greater), every node with children sits strictly above
each child, and all levels lie within one and six. -/
theorem c1_adjusted_forest_invariants (buffer : List String) (fromLine toLine : Int)
    (op : AdjustmentOperation) (m : Int) (hm : 1 ≤ m) :
    (∀ j p, j < (parseHeaders buffer fromLine toLine).length →
      parentAt (parseHeaders buffer fromLine toLine) j = some p →
      lvlAt (updateHeaderLevels (parseHeaders buffer fromLine toLine) op m) p
        < lvlAt (updateHeaderLevels (parseHeaders buffer fromLine toLine) op m) j) ∧
    (∀ j c, j < (parseHeaders buffer fromLine toLine).length →
      c ∈ childrenAt (parseHeaders buffer fromLine toLine) j →
      lvlAt (updateHeaderLevels (parseHeaders buffer fromLine toLine) op m) j
        < lvlAt (updateHeaderLevels (parseHeaders buffer fromLine toLine) op m) c) ∧
    (∀ j, j < (parseHeaders buffer fromLine toLine).length →
      1 ≤ lvlAt (updateHeaderLevels (parseHeaders buffer fromLine toLine) op m) j ∧
      lvlAt (updateHeaderLevels (parseHeaders buffer fromLine toLine) op m) j ≤ 6) :=
  updateHeaderLevels_invariants (parseHeaders buffer fromLine toLine) op m hm
    (parseHeaders_wf buffer fromLine toLine)

/-- Witness for claim C1 at a concrete two-header document. -/
theorem c1_adjusted_forest_invariants_witness :
    (1 : Int) ≤ 1 ∧
    lvlAt (updateHeaderLevels (parseHeaders ["# A", "## B"] 0 1) .increase 1) 0
      < lvlAt (updateHeaderLevels (parseHeaders ["# A", "## B"] 0 1) .increase 1) 1 ∧
    1 ≤ lvlAt (updateHeaderLevels (parseHeaders ["# A", "## B"] 0 1) .increase 1) 0 ∧
    lvlAt (updateHeaderLevels (parseHeaders ["# A", "## B"] 0 1) .increase 1) 1 ≤ 6 := by
  refine ⟨by decide, ?_, ?_, ?_⟩
  · exact (c1_adjusted_forest_invariants ["# A", "## B"] 0 1 .increase 1 (by decide)).1
      1 0 (by decide) (by decide)
  · exact ((c1_adjusted_forest_invariants ["# A", "## B"] 0 1 .increase 1 (by decide)).2.2
      0 (by decide)).1
  · exact ((c1_adjusted_forest_invariants ["# A", "## B"] 0 1 .increase 1 (by decide)).2.2
      1 (by decide)).2

/-- Claim C9: the adjuster is directionally monotone on parser output:
increase never assigns a level below the original, decrease never above
it, even when constraint forcing fires. -/
theorem c9_directional_monotonicity (buffer : List String) (fromLine toLine : Int)
    (m : Int) (hm : 1 ≤ m) :
    (∀ j, j < (parseHeaders buffer fromLine toLine).length →
      origAt (parseHeaders buffer fromLine toLine) j
        ≤ lvlAt (updateHeaderLevels (parseHeaders buffer fromLine toLine) .increase m) j) ∧
    (∀ j, j < (parseHeaders buffer fromLine toLine).length →
      lvlAt (updateHeaderLevels (parseHeaders buffer fromLine toLine) .decrease m) j
        ≤ origAt (parseHeaders buffer fromLine toLine) j) :=
  ⟨updateHeaderLevels_increase_ge (parseHeaders buffer fromLine toLine) m hm
      (parseHeaders_wf buffer fromLine toLine),
    updateHeaderLevels_decrease_le (parseHeaders buffer fromLine toLine) m hm
      (parseHeaders_wf buffer fromLine toLine)⟩

/-- Witness for claim C9: increasing a clamped header keeps it at least
at its original level, and decreasing a forced child keeps it at most at
its original level. -/
theorem c9_directional_monotonicity_witness :
    (1 : Int) ≤ 10 ∧
    origAt (parseHeaders ["# A", "## B"] 0 1) 0
      ≤ lvlAt (updateHeaderLevels (parseHeaders ["# A", "## B"] 0 1) .increase 10) 0 ∧
    lvlAt (updateHeaderLevels (parseHeaders ["# A", "## B"] 0 1) .decrease 10) 1
      ≤ origAt (parseHeaders ["# A", "## B"] 0 1) 1 := by
  refine ⟨by decide, ?_, ?_⟩
  · exact (c9_directional_monotonicity ["# A", "## B"] 0 1 10 (by decide)).1 0 (by decide)
  · exact (c9_directional_monotonicity ["# A", "## B"] 0 1 10 (by decide)).2 1 (by decide)

/-- Claim C3: each parsed node's parent is the nearest preceding emitted
node with strictly smaller level, or none when no such node exists, and
each node appears in its parent's children array exactly once and in no
other children array. -/
theorem c3_parser_nearest_enclosing_tree (buffer : List String) (fromLine toLine : Int) :
    (∀ i, i < (parseHeaders buffer fromLine toLine).length →
      parentAt (parseHeaders buffer fromLine toLine) i
        = nearestSmallerBefore (parseHeaders buffer fromLine toLine) i
            (lvlAt (parseHeaders buffer fromLine toLine) i)) ∧
    (∀ i p, i < (parseHeaders buffer fromLine toLine).length →
      parentAt (parseHeaders buffer fromLine toLine) i = some p →
      (childrenAt (parseHeaders buffer fromLine toLine) p).count i = 1) ∧
    (∀ i p, i < (parseHeaders buffer fromLine toLine).length →
      p < (parseHeaders buffer fromLine toLine).length →
      parentAt (parseHeaders buffer fromLine toLine) i ≠ some p →
      (childrenAt (parseHeaders buffer fromLine toLine) p).count i = 0) := by
  have wf := parseHeaders_wf buffer fromLine toLine
  refine ⟨parseHeaders_parent_near buffer fromLine toLine, ?_, ?_⟩
  · intro i p hi hp
    have hplt : p < i := wf.parent_lt i p hp
    have hmem : i ∈ childrenAt (parseHeaders buffer fromLine toLine) p :=
      (wf.mem_children (by omega) i).mpr ⟨hi, hp⟩
    have hnodup : (childrenAt (parseHeaders buffer fromLine toLine) p).Nodup := by
      rw [wf.children_eq p (by omega)]
      exact (List.nodup_range _).filter _
    exact List.count_eq_one_of_mem hnodup hmem
  · intro i p hi hplen hp
    apply List.count_eq_zero.mpr
    intro hmem
    exact hp ((wf.mem_children hplen i).mp hmem).2

/-- Witness for claim C3 on a non-monotonic document: the third header
skips over the deeper second one to the first. -/
theorem c3_parser_nearest_enclosing_tree_witness :
    parentAt (parseHeaders ["# A", "### B", "## C"] 0 2) 2 = some 0 ∧
    (childrenAt (parseHeaders ["# A", "### B", "## C"] 0 2) 0).count 2 = 1 ∧
    (childrenAt (parseHeaders ["# A", "### B", "## C"] 0 2) 1).count 2 = 0 := by
  refine ⟨?_, ?_, ?_⟩
  · have h := (c3_parser_nearest_enclosing_tree ["# A", "### B", "## C"] 0 2).1 2 (by decide)
    rw [h]
    decide
  · exact (c3_parser_nearest_enclosing_tree ["# A", "### B", "## C"] 0 2).2.1 2 0 (by decide)
      (by decide)
  · exact (c3_parser_nearest_enclosing_tree ["# A", "### B", "## C"] 0 2).2.2 2 1 (by decide)
      (by decide) (by decide)

end HeaderAdjuster

namespace HeaderAdjuster

/-- Claim C6: when the increase operation triggers no clamping, so every
node's adjusted level is exactly its original level plus the magnitude,
running the decrease operation with the same magnitude on the resulting
forest, with original levels re-snapshotted from the increased levels,
restores every node's initial level exactly. -/
theorem c6_increase_then_decrease_round_trip (buffer : List String) (fromLine toLine : Int)
    (m : Int) (hm : 1 ≤ m)
    (hnoclamp : ∀ i, i < (parseHeaders buffer fromLine toLine).length →
      lvlAt (updateHeaderLevels (parseHeaders buffer fromLine toLine) .increase m) i
        = origAt (parseHeaders buffer fromLine toLine) i + m) :
    ∀ i, i < (parseHeaders buffer fromLine toLine).length →
      lvlAt (updateHeaderLevels
          (resnapshotOriginal
            (updateHeaderLevels (parseHeaders buffer fromLine toLine) .increase m))
          .decrease m) i
        = origAt (parseHeaders buffer fromLine toLine) i := by
  have wf := parseHeaders_wf buffer fromLine toLine
  have hlvl6 := (updateHeaderLevels_invariants (parseHeaders buffer fromLine toLine)
    .increase m hm wf).2.2
  have hlen1 : (updateHeaderLevels (parseHeaders buffer fromLine toLine) .increase m).length
      = (parseHeaders buffer fromLine toLine).length :=
    length_updateHeaderLevels (parseHeaders buffer fromLine toLine) .increase m
  have hlen2 : (resnapshotOriginal
      (updateHeaderLevels (parseHeaders buffer fromLine toLine) .increase m)).length
      = (parseHeaders buffer fromLine toLine).length := by
    rw [length_resnapshot, hlen1]
  have hparent2 : ∀ j, parentAt (resnapshotOriginal
      (updateHeaderLevels (parseHeaders buffer fromLine toLine) .increase m)) j
      = parentAt (parseHeaders buffer fromLine toLine) j := by
    intro j
    rw [parentAt_resnapshot, parentAt_updateHeaderLevels]
  have horig2 : ∀ j, j < (parseHeaders buffer fromLine toLine).length →
      origAt (resnapshotOriginal
        (updateHeaderLevels (parseHeaders buffer fromLine toLine) .increase m)) j
      = origAt (parseHeaders buffer fromLine toLine) j + m := by
    intro j hj
    rw [origAt_resnapshot]
    exact hnoclamp j hj
  have hexact := decrease_exact
    (resnapshotOriginal (updateHeaderLevels (parseHeaders buffer fromLine toLine) .increase m))
    m hm
    (by
      intro i p hi hp
      rw [hlen2] at hi
      rw [hparent2] at hp
      have hplt : p < i := wf.parent_lt i p hp
      rw [horig2 i hi, horig2 p (by omega)]
      have := wf.parent_orig i p hi hp
      omega)
    (by
      intro i p hp
      rw [hparent2] at hp
      exact wf.parent_lt i p hp)
    (by
      intro i hi
      rw [hlen2] at hi
      rw [horig2 i hi]
      have := wf.orig_lb i hi
      omega)
    (by
      intro i hi
      rw [hlen2] at hi
      rw [horig2 i hi, ← hnoclamp i hi]
      exact (hlvl6 i hi).2)
  intro i hi
  rw [hexact i (by rw [hlen2]; omega), horig2 i hi]
  omega

/-- Witness for claim C6 at a concrete unclamped run. -/
theorem c6_increase_then_decrease_round_trip_witness :
    (1 : Int) ≤ 1 ∧
    lvlAt (updateHeaderLevels
        (resnapshotOriginal (updateHeaderLevels (parseHeaders ["# A", "## B"] 0 1) .increase 1))
        .decrease 1) 0 = origAt (parseHeaders ["# A", "## B"] 0 1) 0 ∧
    lvlAt (updateHeaderLevels
        (resnapshotOriginal (updateHeaderLevels (parseHeaders ["# A", "## B"] 0 1) .increase 1))
        .decrease 1) 1 = origAt (parseHeaders ["# A", "## B"] 0 1) 1 := by
  refine ⟨by decide, ?_, ?_⟩
  · exact c6_increase_then_decrease_round_trip ["# A", "## B"] 0 1 1 (by decide) (by decide)
      0 (by decide)
  · exact c6_increase_then_decrease_round_trip ["# A", "## B"] 0 1 1 (by decide) (by decide)
      1 (by decide)

end HeaderAdjuster

namespace HeaderAdjuster

theorem getD_of_get?_eq_some_gen {α : Type} {l : List α} {i : Nat} {a d : α}
    (h : l.get? i = some a) : l.getD i d = a := by
  rw [List.getD_eq_getElem?_getD, ← List.get?_eq_getElem?, h]
  rfl

theorem mem_insertDescByLine (x y : HNode) :
    ∀ l : List HNode, y ∈ insertDescByLine x l ↔ y = x ∨ y ∈ l := by
  intro l
  induction l with
  | nil => simp [insertDescByLine]
  | cons z zs ih =>
    rw [insertDescByLine]
    split
    · simp only [List.mem_cons, ih]
      tauto
    · simp only [List.mem_cons]

theorem mem_sortDescByLine (hs : List HNode) (y : HNode) :
    y ∈ sortDescByLine hs ↔ y ∈ hs := by
  rw [sortDescByLine]
  induction hs with
  | nil => simp
  | cons z zs ih =>
    rw [List.foldr_cons, mem_insertDescByLine, ih, List.mem_cons]

theorem changeFor_some_facts {h : HNode} {c : EditorChange} (hc : changeFor h = some c) :
    h.level ≠ h.originalLevel ∧ c.line = h.lineNumber - 1 ∧ c.fromCh = 0 ∧
      c.toCh = h.originalLevel ∧
      c.text = String.mk (List.replicate h.level.toNat '#') ++ " " := by
  unfold changeFor at hc
  split at hc
  · exact absurd hc (by simp)
  · next hne =>
    obtain rfl : _ = c := Option.some.inj hc
    exact ⟨hne, rfl, rfl, rfl, rfl⟩

/-- A change emitted by the applier always comes from a node whose level
differs from its original level. -/
theorem mem_applyHeaderChanges {hs : List HNode} {c : EditorChange} :
    c ∈ applyHeaderChanges hs ↔ ∃ h ∈ hs, changeFor h = some c := by
  unfold applyHeaderChanges
  constructor
  · intro hmem
    obtain ⟨o, ho, hoc⟩ := List.mem_filterMap.mp hmem
    obtain ⟨h, hh, hho⟩ := List.mem_map.mp ho
    exact ⟨h, (mem_sortDescByLine hs h).mp hh, by rw [hho]; exact hoc⟩
  · intro ⟨h, hh, hhc⟩
    apply List.mem_filterMap.mpr
    exact ⟨some c, List.mem_map.mpr ⟨h, (mem_sortDescByLine hs h).mpr hh, hhc⟩, rfl⟩

theorem length_applyChangeToBuffer (buffer : List String) (c : EditorChange) :
    (applyChangeToBuffer buffer c).length = buffer.length := by
  unfold applyChangeToBuffer
  cases buffer.get? c.line <;> simp

/-- Applying changes that avoid line `i` leaves line `i` untouched. -/
theorem applyChanges_frame (i : Nat) :
    ∀ (cs : List EditorChange) (buffer : List String), (∀ c ∈ cs, c.line ≠ i) →
      (applyChanges buffer cs).get? i = buffer.get? i := by
  intro cs
  induction cs with
  | nil => intro buffer _; rfl
  | cons c cs ih =>
    intro buffer hne
    rw [applyChanges, List.foldl_cons]
    have h1 : (applyChangeToBuffer buffer c).get? i = buffer.get? i := by
      unfold applyChangeToBuffer
      cases hg : buffer.get? c.line with
      | none => rfl
      | some l =>
        rw [List.get?_eq_getElem?, List.get?_eq_getElem?,
          List.getElem?_set_ne (hne c (List.mem_cons_self c cs))]
    rw [← h1]
    exact ih (applyChangeToBuffer buffer c) (fun c' hc' => hne c' (List.mem_cons_of_mem c hc'))

/-- The buffer after a run is either untouched or the batch application
of the emitted changes. -/
theorem processHeaderAdjustment_snd (buffer : List String) (op : AdjustmentOperation)
    (levels : Int) (fromLine toLine : Option Int) :
    (processHeaderAdjustment buffer op levels fromLine toLine).2 = buffer ∨
    (processHeaderAdjustment buffer op levels fromLine toLine).2
      = applyChanges buffer (applyHeaderChanges (updateHeaderLevels
          (parseHeaders buffer (fromLine.getD 0) (toLine.getD ((buffer.length : Int) - 1)))
          op levels)) := by
  simp only [processHeaderAdjustment]
  by_cases h1 : fromLine.getD 0 > toLine.getD ((buffer.length : Int) - 1)
  · rw [if_pos h1]
    exact Or.inl rfl
  rw [if_neg h1]
  by_cases h2 : levels = 0
  · rw [if_pos h2]
    exact Or.inl rfl
  rw [if_neg h2]
  by_cases h3 : levels < 0
  · rw [if_pos h3]
    exact Or.inl rfl
  rw [if_neg h3]
  by_cases h4 : (parseHeaders buffer (fromLine.getD 0)
      (toLine.getD ((buffer.length : Int) - 1))).length = 0
  · rw [if_pos h4]
    exact Or.inl rfl
  rw [if_neg h4]
  split
  · exact Or.inr rfl
  · exact Or.inr rfl

end HeaderAdjuster

namespace HeaderAdjuster

theorem mem_node_index {hs : List HNode} {h : HNode} (hmem : h ∈ hs) :
    ∃ idx, idx < hs.length ∧ hs.getD idx default = h := by
  obtain ⟨idx, hlt, heq⟩ := List.mem_iff_getElem.mp hmem
  refine ⟨idx, hlt, ?_⟩
  rw [List.getD_eq_getElem?_getD, List.getElem?_eq_getElem hlt]
  exact heq

/-- Claim C7: the change applier emits a change only for nodes whose
adjusted level differs from the original, each change targets that
node's line, and any buffer line carrying no such node is byte-for-byte
unchanged by a full pipeline run. -/
theorem c7_only_changed_header_lines_touched (buffer : List String) (op : AdjustmentOperation)
    (levels : Int) (fromLine toLine : Option Int) :
    (∀ c ∈ applyHeaderChanges (updateHeaderLevels
        (parseHeaders buffer (fromLine.getD 0) (toLine.getD ((buffer.length : Int) - 1)))
        op levels),
      ∃ idx, idx < (parseHeaders buffer (fromLine.getD 0)
          (toLine.getD ((buffer.length : Int) - 1))).length ∧
        lvlAt (updateHeaderLevels (parseHeaders buffer (fromLine.getD 0)
            (toLine.getD ((buffer.length : Int) - 1))) op levels) idx
          ≠ origAt (updateHeaderLevels (parseHeaders buffer (fromLine.getD 0)
            (toLine.getD ((buffer.length : Int) - 1))) op levels) idx ∧
        c.line + 1 = lineAt (parseHeaders buffer (fromLine.getD 0)
            (toLine.getD ((buffer.length : Int) - 1))) idx) ∧
    (∀ i line, buffer.get? i = some line →
      (∀ idx, idx < (parseHeaders buffer (fromLine.getD 0)
          (toLine.getD ((buffer.length : Int) - 1))).length →
        lvlAt (updateHeaderLevels (parseHeaders buffer (fromLine.getD 0)
            (toLine.getD ((buffer.length : Int) - 1))) op levels) idx
          ≠ origAt (updateHeaderLevels (parseHeaders buffer (fromLine.getD 0)
            (toLine.getD ((buffer.length : Int) - 1))) op levels) idx →
        lineAt (parseHeaders buffer (fromLine.getD 0)
            (toLine.getD ((buffer.length : Int) - 1))) idx ≠ i + 1) →
      (processHeaderAdjustment buffer op levels fromLine toLine).2.get? i = some line) := by
  have hpart1 : ∀ c ∈ applyHeaderChanges (updateHeaderLevels
      (parseHeaders buffer (fromLine.getD 0) (toLine.getD ((buffer.length : Int) - 1)))
      op levels),
      ∃ idx, idx < (parseHeaders buffer (fromLine.getD 0)
          (toLine.getD ((buffer.length : Int) - 1))).length ∧
        lvlAt (updateHeaderLevels (parseHeaders buffer (fromLine.getD 0)
            (toLine.getD ((buffer.length : Int) - 1))) op levels) idx
          ≠ origAt (updateHeaderLevels (parseHeaders buffer (fromLine.getD 0)
            (toLine.getD ((buffer.length : Int) - 1))) op levels) idx ∧
        c.line + 1 = lineAt (parseHeaders buffer (fromLine.getD 0)
            (toLine.getD ((buffer.length : Int) - 1))) idx := by
    intro c hc
    obtain ⟨h, hmem, hcf⟩ := mem_applyHeaderChanges.mp hc
    obtain ⟨hne, hcl, _, _, _⟩ := changeFor_some_facts hcf
    obtain ⟨idx, hidxlt, hidxeq⟩ := mem_node_index hmem
    have hlen := length_updateHeaderLevels
      (parseHeaders buffer (fromLine.getD 0) (toLine.getD ((buffer.length : Int) - 1)))
      op levels
    have hidxlt2 : idx < (parseHeaders buffer (fromLine.getD 0)
        (toLine.getD ((buffer.length : Int) - 1))).length := by omega
    have hlvl : lvlAt (updateHeaderLevels (parseHeaders buffer (fromLine.getD 0)
        (toLine.getD ((buffer.length : Int) - 1))) op levels) idx = h.level := by
      rw [lvlAt, hidxeq]
    have horig : origAt (updateHeaderLevels (parseHeaders buffer (fromLine.getD 0)
        (toLine.getD ((buffer.length : Int) - 1))) op levels) idx = h.originalLevel := by
      rw [origAt, hidxeq]
    have hlineu : lineAt (updateHeaderLevels (parseHeaders buffer (fromLine.getD 0)
        (toLine.getD ((buffer.length : Int) - 1))) op levels) idx = h.lineNumber := by
      rw [lineAt, hidxeq]
    have hlinep : lineAt (parseHeaders buffer (fromLine.getD 0)
        (toLine.getD ((buffer.length : Int) - 1))) idx = h.lineNumber := by
      rw [← lineAt_updateHeaderLevels _ op levels idx, hlineu]
    obtain ⟨j, hj, hjline, _⟩ :=
      parseHeaders_prov buffer (fromLine.getD 0) (toLine.getD ((buffer.length : Int) - 1))
        idx hidxlt2
    refine ⟨idx, hidxlt2, by rw [hlvl, horig]; exact hne, ?_⟩
    rw [hlinep, hcl]
    rw [hlinep] at hjline
    omega
  refine ⟨hpart1, ?_⟩
  intro i line hline hnotchanged
  rcases processHeaderAdjustment_snd buffer op levels fromLine toLine with heq | heq
  · rw [heq]
    exact hline
  · rw [heq, applyChanges_frame i _ buffer ?_]
    · exact hline
    · intro c hc
      obtain ⟨idx, hidxlt, hne, hcline⟩ := hpart1 c hc
      have := hnotchanged idx hidxlt hne
      omega

/-- Witness for claim C7: a run over a document whose second line is not
a header leaves that line unchanged. -/
theorem c7_only_changed_header_lines_touched_witness :
    (processHeaderAdjustment ["# A", "plain text"] .increase 1 none none).2.get? 1
      = some "plain text" := by
  have h := (c7_only_changed_header_lines_touched ["# A", "plain text"] .increase 1 none none).2
    1 "plain text" (by decide) (by decide)
  exact h

/-- Claim C10: a line whose leading hash run is longer than six, or
whose hash run is not followed by a whitespace character, is never
emitted as a header node by any parse of the buffer and is never
modified by a run of the pipeline. -/
theorem c10_malformed_header_lines_ignored (buffer : List String) (op : AdjustmentOperation)
    (levels : Int) (fromLine toLine : Option Int) :
    ∀ i line, buffer.get? i = some line →
      (6 < hashRunLen line ∨ hashFollowedByWs line = false) →
      (∀ fromL toL : Int, ∀ idx, idx < (parseHeaders buffer fromL toL).length →
        lineAt (parseHeaders buffer fromL toL) idx ≠ i + 1) ∧
      (processHeaderAdjustment buffer op levels fromLine toLine).2.get? i = some line := by
  intro i line hline hbad
  have hmn : matchHeader line = none := by
    rcases hbad with hb | hb
    · exact matchHeader_none_of_run_gt_six hb
    · exact matchHeader_none_of_no_ws hb
  have hgetD : buffer.getD i default = line := getD_of_get?_eq_some_gen hline
  have hpart1 : ∀ fromL toL : Int, ∀ idx, idx < (parseHeaders buffer fromL toL).length →
      lineAt (parseHeaders buffer fromL toL) idx ≠ i + 1 := by
    intro fromL toL idx hidx hcontra
    obtain ⟨j, hj, hlineAt, k, hmk, _⟩ := parseHeaders_prov buffer fromL toL idx hidx
    rw [hlineAt] at hcontra
    obtain rfl : j = i := by omega
    rw [hgetD, hmn] at hmk
    exact absurd hmk (by simp)
  refine ⟨hpart1, ?_⟩
  rcases processHeaderAdjustment_snd buffer op levels fromLine toLine with heq | heq
  · rw [heq]
    exact hline
  · rw [heq, applyChanges_frame i _ buffer ?_]
    · exact hline
    · intro c hc
      obtain ⟨h, hmem, hcf⟩ := mem_applyHeaderChanges.mp hc
      obtain ⟨hne, hcl, _, _, _⟩ := changeFor_some_facts hcf
      obtain ⟨idx, hidxlt, hidxeq⟩ := mem_node_index hmem
      have hlen := length_updateHeaderLevels
        (parseHeaders buffer (fromLine.getD 0) (toLine.getD ((buffer.length : Int) - 1)))
        op levels
      have hidxlt2 : idx < (parseHeaders buffer (fromLine.getD 0)
          (toLine.getD ((buffer.length : Int) - 1))).length := by omega
      have hlineu : lineAt (updateHeaderLevels (parseHeaders buffer (fromLine.getD 0)
          (toLine.getD ((buffer.length : Int) - 1))) op levels) idx = h.lineNumber := by
        rw [lineAt, hidxeq]
      have hlinep : lineAt (parseHeaders buffer (fromLine.getD 0)
          (toLine.getD ((buffer.length : Int) - 1))) idx = h.lineNumber := by
        rw [← lineAt_updateHeaderLevels _ op levels idx, hlineu]
      obtain ⟨j, hj, hjline, _⟩ :=
        parseHeaders_prov buffer (fromLine.getD 0) (toLine.getD ((buffer.length : Int) - 1))
          idx hidxlt2
      have hnei := hpart1 (fromLine.getD 0) (toLine.getD ((buffer.length : Int) - 1))
        idx hidxlt2
      rw [hlinep] at hjline
      rw [hlinep] at hnei
      omega

/-- Witness for claim C10: a line of seven hashes and a line with no
whitespace after the hashes are not parsed and survive a run intact. -/
theorem c10_malformed_header_lines_ignored_witness :
    (∀ idx, idx < (parseHeaders ["# A", "####### B", "##C"] 0 2).length →
      lineAt (parseHeaders ["# A", "####### B", "##C"] 0 2) idx ≠ 2) ∧
    (processHeaderAdjustment ["# A", "####### B", "##C"] .increase 1 none none).2.get? 1
      = some "####### B" ∧
    (processHeaderAdjustment ["# A", "####### B", "##C"] .increase 1 none none).2.get? 2
      = some "##C" := by
  refine ⟨?_, ?_, ?_⟩
  · exact fun idx hidx =>
      ((c10_malformed_header_lines_ignored ["# A", "####### B", "##C"] .increase 1 none none
        1 "####### B" (by decide) (by decide)).1 0 2 idx hidx)
  · exact (c10_malformed_header_lines_ignored ["# A", "####### B", "##C"] .increase 1 none none
      1 "####### B" (by decide) (by decide)).2
  · exact (c10_malformed_header_lines_ignored ["# A", "####### B", "##C"] .increase 1 none none
      2 "##C" (by decide) (by decide)).2

end HeaderAdjuster
